import Mathlib

/-!
Verification of the mojibake-repair tool `fix-encoding.py`.

Python strings are modelled as lists of Unicode code points (`Str`), byte
strings as lists of byte values (`Bytes`).  The codec operations used by the
tool (`str.encode('cp1252')`, `str.encode('latin-1')`, `bytes.decode('utf-8')`,
`str.encode('utf-8')`) are embedded as `Option`-valued functions: `none` plays
the role of `UnicodeEncodeError` / `UnicodeDecodeError`.  The file system is
modelled as a map from paths to optional contents.
-/

namespace FixEnc

/-- A Python string, as the list of its Unicode code points. -/
abbrev Str := List Nat

/-- A Python bytes object, as the list of its byte values. -/
abbrev Bytes := List Nat

/-- The two legacy codecs the tool tries, in priority order. -/
inductive Codec
  | cp1252
  | latin1
deriving DecidableEq

/-- Windows-1252 encoding of the code points that map to byte values
0x80-0x9F (the printable characters Windows-1252 defines there).  Code
points not handled by `cp1252EncodeChar`'s identity ranges and absent from
this table cannot be encoded (Python raises `UnicodeEncodeError`).  The
byte values 0x81, 0x8D, 0x8F, 0x90 and 0x9D are undefined in Windows-1252,
so no code point maps to them; in particular U+0080-U+009F are unencodable. -/
def cp1252Table (c : Nat) : Option Nat :=
  match c with
  | 0x20AC => some 0x80
  | 0x201A => some 0x82
  | 0x0192 => some 0x83
  | 0x201E => some 0x84
  | 0x2026 => some 0x85
  | 0x2020 => some 0x86
  | 0x2021 => some 0x87
  | 0x02C6 => some 0x88
  | 0x2030 => some 0x89
  | 0x0160 => some 0x8A
  | 0x2039 => some 0x8B
  | 0x0152 => some 0x8C
  | 0x017D => some 0x8E
  | 0x2018 => some 0x91
  | 0x2019 => some 0x92
  | 0x201C => some 0x93
  | 0x201D => some 0x94
  | 0x2022 => some 0x95
  | 0x2013 => some 0x96
  | 0x2014 => some 0x97
  | 0x02DC => some 0x98
  | 0x2122 => some 0x99
  | 0x0161 => some 0x9A
  | 0x203A => some 0x9B
  | 0x0153 => some 0x9C
  | 0x017E => some 0x9E
  | 0x0178 => some 0x9F
  | _ => none

/-- Encode one code point as a Windows-1252 byte (`str.encode('cp1252')`,
per character). -/
def cp1252EncodeChar (c : Nat) : Option Nat :=
  if c < 0x80 then some c
  else if 0xA0 ≤ c ∧ c ≤ 0xFF then some c
  else cp1252Table c

/-- Encode one code point as a Latin-1 byte (`str.encode('latin-1')`,
per character): the identity on 0x00-0xFF, undefined above. -/
def latin1EncodeChar (c : Nat) : Option Nat :=
  if c ≤ 0xFF then some c else none

/-- Encode one code point under the given codec. -/
def encodeChar : Codec → Nat → Option Nat
  | Codec.cp1252, c => cp1252EncodeChar c
  | Codec.latin1, c => latin1EncodeChar c

/-- Encode a whole string under the given codec; fails (like Python's
`str.encode`) if any single character is unencodable. -/
def encodeStr (codec : Codec) : Str → Option Bytes
  | [] => some []
  | c :: rest =>
    match encodeChar codec c, encodeStr codec rest with
    | some b, some bs => some (b :: bs)
    | _, _ => none

/-- A UTF-8 continuation byte: 0x80-0xBF. -/
def isCont (b : Nat) : Bool := decide (0x80 ≤ b ∧ b < 0xC0)

/-- Valid second byte of a three-byte UTF-8 sequence (excludes overlong
encodings for lead 0xE0 and surrogates for lead 0xED). -/
def validB1three (lead b1 : Nat) : Bool :=
  if lead = 0xE0 then decide (0xA0 ≤ b1 ∧ b1 < 0xC0)
  else if lead = 0xED then decide (0x80 ≤ b1 ∧ b1 < 0xA0)
  else isCont b1

/-- Valid second byte of a four-byte UTF-8 sequence (excludes overlong
encodings for lead 0xF0 and code points above U+10FFFF for lead 0xF4). -/
def validB1four (lead b1 : Nat) : Bool :=
  if lead = 0xF0 then decide (0x90 ≤ b1 ∧ b1 < 0xC0)
  else if lead = 0xF4 then decide (0x80 ≤ b1 ∧ b1 < 0x90)
  else isCont b1

/-- Code point of a two-byte UTF-8 sequence. -/
def cpOf2 (b b1 : Nat) : Nat := (b % 0x20) * 0x40 + b1 % 0x40

/-- Code point of a three-byte UTF-8 sequence. -/
def cpOf3 (b b1 b2 : Nat) : Nat :=
  (b % 0x10) * 0x1000 + (b1 % 0x40) * 0x40 + b2 % 0x40

/-- Code point of a four-byte UTF-8 sequence. -/
def cpOf4 (b b1 b2 b3 : Nat) : Nat :=
  (b % 8) * 0x40000 + (b1 % 0x40) * 0x1000 + (b2 % 0x40) * 0x40 + b3 % 0x40

/-- Strict UTF-8 decoding, as performed by Python's `bytes.decode('utf-8')`:
rejects lead bytes 0x80-0xC1 and 0xF5-0xFF, truncated sequences, bad
continuation bytes, overlong encodings and surrogate code points.  The
`fuel` argument only drives the recursion: every step consumes at least
one byte and exactly one unit of fuel, so starting `utf8Decode` with
`fuel = bs.length` makes the fuel-exhaustion branch unreachable
(`utf8DecodeF_irrel` below makes this formal). -/
def utf8DecodeF : Nat → Bytes → Option Str
  | _, [] => some []
  | 0, _ :: _ => none
  | fuel + 1, b :: rest =>
    if b < 0x80 then (utf8DecodeF fuel rest).map (fun s => b :: s)
    else if b < 0xC2 then none
    else if b < 0xE0 then
      match rest with
      | b1 :: rest2 =>
        if isCont b1 then (utf8DecodeF fuel rest2).map (fun s => cpOf2 b b1 :: s)
        else none
      | [] => none
    else if b < 0xF0 then
      match rest with
      | b1 :: b2 :: rest3 =>
        if validB1three b b1 && isCont b2 then
          (utf8DecodeF fuel rest3).map (fun s => cpOf3 b b1 b2 :: s)
        else none
      | _ => none
    else if b < 0xF5 then
      match rest with
      | b1 :: b2 :: b3 :: rest4 =>
        if validB1four b b1 && isCont b2 && isCont b3 then
          (utf8DecodeF fuel rest4).map (fun s => cpOf4 b b1 b2 b3 :: s)
        else none
      | _ => none
    else none

/-- Strict UTF-8 decoding of a byte string. -/
def utf8Decode (bs : Bytes) : Option Str := utf8DecodeF bs.length bs

/-- UTF-8 encoding of one code point (`str.encode('utf-8')`, per character);
fails on surrogates, which is the only way the Python call can fail. -/
def utf8EncodeChar (c : Nat) : Option Bytes :=
  if c < 0x80 then some [c]
  else if c < 0x800 then some [0xC0 + c / 0x40, 0x80 + c % 0x40]
  else if c < 0x10000 then
    if 0xD800 ≤ c ∧ c < 0xE000 then none
    else some [0xE0 + c / 0x1000, 0x80 + (c / 0x40) % 0x40, 0x80 + c % 0x40]
  else if c < 0x110000 then
    some [0xF0 + c / 0x40000, 0x80 + (c / 0x1000) % 0x40,
          0x80 + (c / 0x40) % 0x40, 0x80 + c % 0x40]
  else none

/-- UTF-8 encoding of a whole string. -/
def utf8Encode : Str → Option Bytes
  | [] => some []
  | c :: rest =>
    match utf8EncodeChar c, utf8Encode rest with
    | some bs, some rs => some (bs ++ rs)
    | _, _ => none

/-- One codec-reversal step: `text.encode(codec).decode('utf-8')`. -/
def codecFix (codec : Codec) (s : Str) : Option Str :=
  (encodeStr codec s).bind utf8Decode

/-- Loop body of `fix_mojibake_segment`: try each codec in order; on the
first codec whose encode/UTF-8-decode round succeeds, try a second round
with the same codec and prefer its result when it succeeds, differs and is
strictly shorter. -/
def mojibakeGo : List Codec → Str → Str
  | [], text => text
  | codec :: restCodecs, text =>
    match codecFix codec text with
    | none => mojibakeGo restCodecs text
    | some fixed =>
      match codecFix codec fixed with
      | some fixed2 =>
        if fixed2 ≠ fixed ∧ fixed2.length < fixed.length then fixed2 else fixed
      | none => fixed

/-- `fix_mojibake_segment` from the source: codec reversal of one segment,
trying cp1252 then latin-1, with the double-application collapse check. -/
def fix_mojibake_segment (text : Str) : Str :=
  mojibakeGo [Codec.cp1252, Codec.latin1] text

/-- Helper for termination: `dropWhile` never lengthens a list. -/
theorem dropWhile_length_le (p : Nat → Bool) (l : Str) :
    (l.dropWhile p).length ≤ l.length := by
  induction l with
  | nil => simp
  | cons c rest ih =>
    simp only [List.dropWhile_cons]
    split
    · simp only [List.length_cons]; omega
    · simp

/-- Scanning loop of `fix_line_segments`: a character with code point
≥ 0xC0 starts a segment, which then extends over all consecutive
characters with code point ≥ 0x80 and is repaired as one unit; every
other character is copied through unchanged. -/
def segGo : Str → Str
  | [] => []
  | c :: rest =>
    if 0xC0 ≤ c then
      fix_mojibake_segment ((c :: rest).takeWhile (fun x => decide (0x80 ≤ x)))
        ++ segGo ((c :: rest).dropWhile (fun x => decide (0x80 ≤ x)))
    else
      c :: segGo rest
termination_by s => s.length
decreasing_by
  · simp only [List.dropWhile_cons]
    have hc : (decide (0x80 ≤ c)) = true := by
      simp; omega
    rw [hc]
    simp only [if_true]
    have := dropWhile_length_le (fun x => decide (0x80 ≤ x)) rest
    simp only [List.length_cons]
    omega
  · simp

/-- `fix_line_segments` from the source. -/
def fix_line_segments (line : Str) : Str := segGo line

/-- Python's `content.split('\n')`. -/
def splitNl : Str → List Str
  | [] => [[]]
  | c :: rest =>
    match splitNl rest with
    | [] => [[]]
    | l :: ls => if c = 10 then [] :: l :: ls else (c :: l) :: ls

/-- Python's `'\n'.join(lines)`. -/
def joinNl : List Str → Str
  | [] => []
  | [l] => l
  | l :: ls => l ++ 10 :: joinNl ls

/-- One Strategy-1 attempt of `fix_encoding`: whole-content codec reversal,
verified to be encodable as UTF-8, accepted only when strictly shorter. -/
def strat1Try (codec : Codec) (content : Str) : Option Str :=
  match codecFix codec content with
  | none => none
  | some full_fix =>
    match utf8Encode full_fix with
    | none => none
    | some _ => if full_fix.length < content.length then some full_fix else none

/-- Strategy 1 of `fix_encoding`: the attempts over both codecs in order. -/
def strategy1 (content : Str) : Option Str :=
  match strat1Try Codec.cp1252 content with
  | some f => some f
  | none => strat1Try Codec.latin1 content

/-- Per-line work of Strategies 2 and 3 of `fix_encoding`: the first codec
whose reversal round succeeds yields the line's replacement (even when it
equals the line); only when both codecs fail does the line fall through to
`fix_line_segments`. -/
def fixLine (line : Str) : Str :=
  match codecFix Codec.cp1252 line with
  | some candidate => candidate
  | none =>
    match codecFix Codec.latin1 line with
    | some candidate => candidate
    | none => fix_line_segments line

/-- `fix_encoding` from the source: Strategy 1 on the whole content, else
Strategies 2/3 applied line by line with the lines rejoined by newlines. -/
def fix_encoding (content : Str) : Str :=
  match strategy1 content with
  | some full_fix => full_fix
  | none => joinNl ((splitNl content).map fixLine)

/-- Does `pat` occur at the very start of `s`? -/
def leadsWith : Str → Str → Bool
  | [], _ => true
  | _ :: _, [] => false
  | p :: ps, c :: cs => p = c && leadsWith ps cs

/-- Python's substring test `pat in s`. -/
def occursIn (pat : Str) : Str → Bool
  | [] => pat.isEmpty
  | c :: rest => leadsWith pat (c :: rest) || occursIn pat rest

/-- Helper for termination: a leading occurrence is no longer than the
string it leads. -/
theorem leadsWith_length_le (pat s : Str) (h : leadsWith pat s = true) :
    pat.length ≤ s.length := by
  induction pat generalizing s with
  | nil => simp
  | cons p ps ih =>
    cases s with
    | nil => simp [leadsWith] at h
    | cons c cs =>
      simp only [leadsWith, Bool.and_eq_true] at h
      have := ih cs h.2
      simp only [List.length_cons]
      omega

/-- Python's `s.replace(pat, rep)` for a non-empty `pat`: replace all
non-overlapping occurrences, scanning left to right. -/
def replaceAll (pat rep : Str) : Str → Str
  | [] => []
  | c :: rest =>
    if h : leadsWith pat (c :: rest) = true ∧ pat ≠ [] then
      rep ++ replaceAll pat rep ((c :: rest).drop pat.length)
    else
      c :: replaceAll pat rep rest
termination_by s => s.length
decreasing_by
  · have hlen := leadsWith_length_le pat (c :: rest) h.1
    have hp : 1 ≤ pat.length := by
      cases pat with
      | nil => exact absurd rfl h.2
      | cons _ _ => simp
    simp only [List.length_drop, List.length_cons] at *
    omega
  · simp

/-- Python's `s.count(pat)` for a non-empty `pat`: the number of
non-overlapping occurrences, scanning left to right. -/
def countOcc (pat : Str) : Str → Nat
  | [] => 0
  | c :: rest =>
    if h : leadsWith pat (c :: rest) = true ∧ pat ≠ [] then
      1 + countOcc pat ((c :: rest).drop pat.length)
    else
      countOcc pat rest
termination_by s => s.length
decreasing_by
  · have hlen := leadsWith_length_le pat (c :: rest) h.1
    have hp : 1 ≤ pat.length := by
      cases pat with
      | nil => exact absurd rfl h.2
      | cons _ _ => simp
    simp only [List.length_drop, List.length_cons] at *
    omega
  · simp

/-- The `control_char_fixes` table of `fix_file` (PASS 2), in source order:
garbled sequences containing raw control characters U+0080-U+009F, mapped
to their correct characters. -/
def control_char_fixes : List (Str × Str) :=
  [ ([0xE2, 0x2020, 0x0090], [0x2190]),
    ([0xE2, 0x0153, 0x008F, 0x00EF, 0x00B8, 0x008F], [0x270F, 0xFE0F]),
    ([0xE2, 0x0153, 0x008F], [0x270F]),
    ([0xE2, 0x0161, 0x00A0], [0x26A0]),
    ([0xE2, 0x0161, 0x00A1], [0x26A1]),
    ([0xE2, 0x0178, 0x00B3], [0x27F3]) ]

/-- PASS 2 of `fix_file`: apply each control-character fix, in order, when
its garbled sequence occurs in the current content. -/
def controlPass (content : Str) : Str :=
  control_char_fixes.foldl
    (fun acc gc => if occursIn gc.1 acc then replaceAll gc.1 gc.2 acc else acc)
    content

/-- The `replacements` table of `apply_known_replacements`, in source order:
(garbled sequence, correct character, description). -/
def replacements : List (Str × Str × String) :=
  [ ([0xE2, 0x0153, 0x201C], [0x2713], "checkmark"),
    ([0xE2, 0x0153, 0x2022], [0x2715], "X mark"),
    ([0xE2, 0x0153, 0x201D], [0x2713], "checkmark variant"),
    ([0xE2, 0x2013, 0x00B6], [0x25B6], "triangle right"),
    ([0xE2, 0x2020, 0x2019], [0x2192], "right arrow"),
    ([0xE2, 0x2020, 0x0090], [0x2190], "left arrow"),
    ([0xE2, 0x20AC, 0x201C], [0x2013], "en dash"),
    ([0xE2, 0x20AC, 0x201D], [0x2014], "em dash"),
    ([0xE2, 0x20AC, 0x2122], [0x2019], "right single quote"),
    ([0xE2, 0x20AC, 0x02DC], [0x2018], "left single quote"),
    ([0xE2, 0x20AC, 0x0153], [0x201C], "left double quote"),
    ([0xE2, 0x20AC, 0x009D], [0x201D], "right double quote"),
    ([0xE2, 0x20AC, 0x00A2], [0x2022], "bullet"),
    ([0xE2, 0x20AC, 0x00A6], [0x2026], "ellipsis"),
    ([0x00C2, 0x00A3], [0x00A3], "pound sign") ]

/-- `apply_known_replacements` from the source: fold the replacement table
over the content, counting each replaced occurrence before replacing it;
returns the new content together with the reported total. -/
def apply_known_replacements (content : Str) : Str × Nat :=
  replacements.foldl
    (fun acc r =>
      if occursIn r.1 acc.1 then
        (replaceAll r.1 r.2.1 acc.1, acc.2 + countOcc r.1 acc.1)
      else acc)
    (content, 0)

/-- The `known_garbled` signature list of `scan_remaining_issues`. -/
def known_garbled : List Str :=
  [ [0xE2, 0x0153], [0xE2, 0x20AC], [0xE2, 0x2013],
    [0xE2, 0x2020], [0x00C2, 0x00A3], [0x00C3, 0x00A2],
    [0x00C3, 0x00A9], [0x00C3, 0x00A8],
    [0x00C3, 0x0192], [0x00C3, 0x201A] ]

/-- `scan_remaining_issues` from the source: the (pattern, count) pairs of
the known garbled signatures occurring in the content, in list order. -/
def scan_remaining_issues (content : Str) : List (Str × Nat) :=
  known_garbled.filterMap
    (fun p => if occursIn p content then some (p, countOcc p content) else none)

/-- The pure repair pipeline run by `fix_file` on the file's content:
PASS 1 (`fix_encoding`), PASS 2 (control-character fixes), then PASS 3
(`apply_known_replacements`, only when `scan_remaining_issues` still finds
known garbled signatures).  The second component is the occurrence total
reported by `apply_known_replacements` (0 when the fallback does not run). -/
def pipelineFix (content : Str) : Str × Nat :=
  let fixed1 := fix_encoding content
  let fixed2 := controlPass fixed1
  if scan_remaining_issues fixed2 = [] then (fixed2, 0)
  else apply_known_replacements fixed2

/-- A file path, as its list of characters. -/
abbrev Path := List Char

/-- The file system: a map from paths to the contents of existing files. -/
abbrev FS := Path → Option Str

/-- The backup path `filepath + '.backup'`. -/
def backupPath (p : Path) : Path := p ++ String.toList ".backup"

/-- Writing one file into the file system. -/
def fsWrite (fs : FS) (p : Path) (v : Str) : FS :=
  fun q => if q = p then some v else fs q

/-- The observable outcome `fix_file` reports for one file. -/
inductive FileOutcome
  | notFound
  | noIssues
  | dryRunSkip
  | written
deriving DecidableEq

/-- `fix_file` from the source, over the file-system model: missing file
reports an error; unchanged content reports no issues and writes nothing;
in dry-run mode nothing is written; otherwise the original is copied to
the backup path and then overwritten with the repaired content.  Returns
the new file system, the outcome, and the per-file success boolean. -/
def fix_file (fs : FS) (filepath : Path) (dry_run : Bool) :
    FS × FileOutcome × Bool :=
  match fs filepath with
  | none => (fs, FileOutcome.notFound, false)
  | some content =>
    let fixed := (pipelineFix content).1
    if content = fixed then (fs, FileOutcome.noIssues, true)
    else if dry_run then (fs, FileOutcome.dryRunSkip, true)
    else
      (fsWrite (fsWrite fs (backupPath filepath) content) filepath fixed,
       FileOutcome.written, true)

/-- Python's `list.remove(x)`: drop the first occurrence of `x`. -/
def removeFirst (x : Path) : List Path → List Path
  | [] => []
  | a :: rest => if a = x then rest else a :: removeFirst x rest

/-- The `--check` flag. -/
def checkFlag : Path := String.toList "--check"

/-- `main` from the source, over the file-system model: with no arguments
it prints usage and exits with status 1; otherwise the presence of
`--check` anywhere enables dry-run mode (and its first occurrence is
removed from the argument list), every remaining argument is processed by
`fix_file` in order with per-file failures only accumulated into the
printed aggregate flag, and the process then falls off the end of `main`,
exiting with status 0.  Returns (final file system, aggregate success
flag, exit status). -/
def mainRun (fs : FS) (argv : List Path) : FS × Bool × Nat :=
  if argv = [] then (fs, true, 1)
  else
    let dry_run := argv.contains checkFlag
    let files := if dry_run then removeFirst checkFlag argv else argv
    let final := files.foldl
      (fun st p =>
        let r := fix_file st.1 p dry_run
        (r.1, st.2 && r.2.2))
      (fs, true)
    (final.1, final.2, 0)

/-!  Spec-side definitions, used to state the claims that compare the code
against the spec's own wording. -/

/-- The §4.1 segment-repair contract, written following the spec's words:
take the first codec candidate, in the order Windows-1252 then Latin-1,
for which encoding the string and decoding the bytes as UTF-8 both
succeed; return the twice-fixed result exactly when the second round also
succeeds, differs from the once-fixed result and is strictly shorter,
otherwise the once-fixed result; if every candidate fails, return the
input unchanged. -/
def segmentRepairSpec (text : Str) : Str :=
  match [Codec.cp1252, Codec.latin1].findSome?
      (fun codec => (codecFix codec text).map (fun once => (codec, once))) with
  | none => text
  | some (codec, once) =>
    match codecFix codec once with
    | some twice =>
      if twice ≠ once ∧ twice.length < once.length then twice else once
    | none => once

/-- Strategy C as claim C3 words it: every maximal run of consecutive
characters with code point ≥ 0x80 is extracted as one segment and
replaced by the segment-repair primitive's result, and characters below
0x80 pass through unchanged. -/
def segGoClaim : Str → Str
  | [] => []
  | c :: rest =>
    if 0x80 ≤ c then
      fix_mojibake_segment ((c :: rest).takeWhile (fun x => decide (0x80 ≤ x)))
        ++ segGoClaim ((c :: rest).dropWhile (fun x => decide (0x80 ≤ x)))
    else
      c :: segGoClaim rest
termination_by s => s.length
decreasing_by
  · simp only [List.dropWhile_cons]
    have hc : (decide (0x80 ≤ c)) = true := by
      simp; omega
    rw [hc]
    simp only [if_true]
    have := dropWhile_length_le (fun x => decide (0x80 ≤ x)) rest
    simp only [List.length_cons]
    omega
  · simp

/-- Claim C3's reading of `fix_line_segments`. -/
def fix_line_segments_claim (line : Str) : Str := segGoClaim line

/-- Content consisting of `n` literal occurrences of the string `g`. -/
def repS : Nat → Str → Str
  | 0, _ => []
  | n + 1, g => g ++ repS n g

/-- The number of occurrences of the single code point `x` in a string. -/
def countCh (x : Nat) : Str → Nat
  | [] => 0
  | c :: rest => (if c = x then 1 else 0) + countCh x rest

/-!  Helper lemmas. -/

/-- Fuel does not matter once it is at least the number of bytes. -/
theorem utf8DecodeF_irrel (f : Nat) : ∀ (g : Nat) (bs : Bytes),
    bs.length ≤ f → bs.length ≤ g → utf8DecodeF f bs = utf8DecodeF g bs := by
  induction f with
  | zero =>
    intro g bs hf _
    cases bs with
    | nil => cases g <;> rfl
    | cons b rest => simp at hf
  | succ f ih =>
    intro g bs hf hg
    cases bs with
    | nil => cases g <;> rfl
    | cons b rest =>
      cases g with
      | zero => simp at hg
      | succ g =>
        simp only [utf8DecodeF]
        by_cases h1 : b < 0x80
        · simp only [if_pos h1]
          rw [ih g rest (by simp at hf; omega) (by simp at hg; omega)]
        · simp only [if_neg h1]
          by_cases h2 : b < 0xC2
          · simp [h2]
          · simp only [if_neg h2]
            by_cases h3 : b < 0xE0
            · simp only [if_pos h3]
              cases rest with
              | nil => rfl
              | cons b1 rest2 =>
                dsimp only
                rw [ih g rest2 (by simp at hf; omega) (by simp at hg; omega)]
            · simp only [if_neg h3]
              by_cases h4 : b < 0xF0
              · simp only [if_pos h4]
                cases rest with
                | nil => rfl
                | cons b1 rest' =>
                  cases rest' with
                  | nil => rfl
                  | cons b2 rest3 =>
                    dsimp only
                    rw [ih g rest3 (by simp at hf; omega) (by simp at hg; omega)]
              · simp only [if_neg h4]
                by_cases h5 : b < 0xF5
                · simp only [if_pos h5]
                  cases rest with
                  | nil => rfl
                  | cons b1 rest' =>
                    cases rest' with
                    | nil => rfl
                    | cons b2 rest'' =>
                      cases rest'' with
                      | nil => rfl
                      | cons b3 rest4 =>
                        dsimp only
                        rw [ih g rest4 (by simp at hf; omega) (by simp at hg; omega)]
                · simp [h5]

/-- Decoding an ASCII byte consumes exactly that byte. -/
theorem utf8Decode_cons_low (b : Nat) (rest : Bytes) (hb : b < 0x80) :
    utf8Decode (b :: rest) = (utf8Decode rest).map (fun s => b :: s) := by
  unfold utf8Decode
  simp only [List.length_cons, utf8DecodeF]
  rw [if_pos hb]

/-- Decoding a valid two-byte sequence. -/
theorem utf8Decode_cons2 (b b1 : Nat) (rest : Bytes)
    (hb1 : 0xC2 ≤ b) (hb2 : b < 0xE0) (hc : isCont b1 = true) :
    utf8Decode (b :: b1 :: rest) = (utf8Decode rest).map (fun s => cpOf2 b b1 :: s) := by
  unfold utf8Decode
  simp only [List.length_cons, utf8DecodeF]
  rw [if_neg (by omega), if_neg (by omega), if_pos hb2]
  rw [if_pos hc, utf8DecodeF_irrel (rest.length + 1) rest.length rest (by omega) (by omega)]

/-- Decoding a valid three-byte sequence. -/
theorem utf8Decode_cons3 (b b1 b2 : Nat) (rest : Bytes)
    (hb1 : 0xE0 ≤ b) (hb2 : b < 0xF0)
    (hv : validB1three b b1 = true) (hc : isCont b2 = true) :
    utf8Decode (b :: b1 :: b2 :: rest)
      = (utf8Decode rest).map (fun s => cpOf3 b b1 b2 :: s) := by
  unfold utf8Decode
  simp only [List.length_cons, utf8DecodeF]
  rw [if_neg (by omega), if_neg (by omega), if_neg (by omega), if_pos hb2]
  rw [if_pos (by simp [hv, hc]),
      utf8DecodeF_irrel (rest.length + 2) rest.length rest (by omega) (by omega)]

/-- Decoding a valid four-byte sequence. -/
theorem utf8Decode_cons4 (b b1 b2 b3 : Nat) (rest : Bytes)
    (hb1 : 0xF0 ≤ b) (hb2 : b < 0xF5)
    (hv : validB1four b b1 = true) (hc2 : isCont b2 = true) (hc3 : isCont b3 = true) :
    utf8Decode (b :: b1 :: b2 :: b3 :: rest)
      = (utf8Decode rest).map (fun s => cpOf4 b b1 b2 b3 :: s) := by
  unfold utf8Decode
  simp only [List.length_cons, utf8DecodeF]
  rw [if_neg (by omega), if_neg (by omega), if_neg (by omega), if_neg (by omega),
      if_pos hb2]
  rw [if_pos (by simp [hv, hc2, hc3]),
      utf8DecodeF_irrel (rest.length + 3) rest.length rest (by omega) (by omega)]

theorem segGo_nil : segGo [] = [] := by rw [segGo]

theorem segGo_cons_high (c : Nat) (rest : Str) (h : 0xC0 ≤ c) :
    segGo (c :: rest) =
      fix_mojibake_segment ((c :: rest).takeWhile (fun x => decide (0x80 ≤ x)))
        ++ segGo ((c :: rest).dropWhile (fun x => decide (0x80 ≤ x))) := by
  rw [segGo]
  simp [h]

theorem segGo_cons_low (c : Nat) (rest : Str) (h : c < 0xC0) :
    segGo (c :: rest) = c :: segGo rest := by
  rw [segGo]
  simp
  omega

theorem segGoClaim_nil : segGoClaim [] = [] := by rw [segGoClaim]

theorem segGoClaim_cons_high (c : Nat) (rest : Str) (h : 0x80 ≤ c) :
    segGoClaim (c :: rest) =
      fix_mojibake_segment ((c :: rest).takeWhile (fun x => decide (0x80 ≤ x)))
        ++ segGoClaim ((c :: rest).dropWhile (fun x => decide (0x80 ≤ x))) := by
  rw [segGoClaim]
  simp [h]

theorem segGoClaim_cons_low (c : Nat) (rest : Str) (h : c < 0x80) :
    segGoClaim (c :: rest) = c :: segGoClaim rest := by
  rw [segGoClaim]
  simp
  omega

theorem replaceAll_nil (pat rep : Str) : replaceAll pat rep [] = [] := by
  rw [replaceAll]

theorem replaceAll_step (pat rep s : Str) (hp : pat ≠ [])
    (hl : leadsWith pat s = true) :
    replaceAll pat rep s = rep ++ replaceAll pat rep (s.drop pat.length) := by
  cases s with
  | nil =>
    cases pat with
    | nil => exact absurd rfl hp
    | cons p ps => simp [leadsWith] at hl
  | cons c rest =>
    rw [replaceAll, dif_pos ⟨hl, hp⟩]

theorem replaceAll_skip (pat rep : Str) (c : Nat) (rest : Str)
    (h : ¬ (leadsWith pat (c :: rest) = true ∧ pat ≠ [])) :
    replaceAll pat rep (c :: rest) = c :: replaceAll pat rep rest := by
  rw [replaceAll, dif_neg h]

theorem countOcc_nil (pat : Str) : countOcc pat [] = 0 := by
  rw [countOcc]

theorem countOcc_step (pat s : Str) (hp : pat ≠ [])
    (hl : leadsWith pat s = true) :
    countOcc pat s = 1 + countOcc pat (s.drop pat.length) := by
  cases s with
  | nil =>
    cases pat with
    | nil => exact absurd rfl hp
    | cons p ps => simp [leadsWith] at hl
  | cons c rest =>
    rw [countOcc, dif_pos ⟨hl, hp⟩]

theorem countOcc_skip (pat : Str) (c : Nat) (rest : Str)
    (h : ¬ (leadsWith pat (c :: rest) = true ∧ pat ≠ [])) :
    countOcc pat (c :: rest) = countOcc pat rest := by
  rw [countOcc, dif_neg h]

theorem leadsWith_append (pat rest : Str) :
    leadsWith pat (pat ++ rest) = true := by
  induction pat with
  | nil => simp [leadsWith]
  | cons p ps ih => simp [leadsWith, ih]

theorem leadsWith_iff (pat s : Str) :
    leadsWith pat s = true ↔ ∃ t, s = pat ++ t := by
  constructor
  · intro h
    induction pat generalizing s with
    | nil => exact ⟨s, rfl⟩
    | cons p ps ih =>
      cases s with
      | nil => simp [leadsWith] at h
      | cons c cs =>
        simp only [leadsWith, Bool.and_eq_true, decide_eq_true_eq] at h
        obtain ⟨t, ht⟩ := ih cs h.2
        exact ⟨t, by simp [h.1, ht]⟩
  · rintro ⟨t, rfl⟩
    exact leadsWith_append pat t

theorem mem_of_occursIn (pat s : Str) (h : occursIn pat s = true) :
    ∀ x ∈ pat, x ∈ s := by
  induction s with
  | nil =>
    intro x hx
    cases pat with
    | nil => simp at hx
    | cons p ps => simp [occursIn, List.isEmpty] at h
  | cons c rest ih =>
    simp only [occursIn, Bool.or_eq_true] at h
    intro x hx
    cases h with
    | inl h =>
      obtain ⟨t, ht⟩ := (leadsWith_iff pat (c :: rest)).1 h
      rw [ht]
      exact List.mem_append_left t hx
    | inr h => exact List.mem_cons_of_mem c (ih h x hx)

theorem occursIn_eq_false (pat s : Str) (x : Nat) (hx : x ∈ pat)
    (hns : x ∉ s) : occursIn pat s = false := by
  by_contra h
  rw [Bool.not_eq_false] at h
  exact hns (mem_of_occursIn pat s h x hx)

theorem occursIn_of_leadsWith (pat s : Str) (hp : pat ≠ [])
    (h : leadsWith pat s = true) : occursIn pat s = true := by
  cases s with
  | nil =>
    cases pat with
    | nil => exact absurd rfl hp
    | cons p ps => simp [leadsWith] at h
  | cons c rest => simp [occursIn, h]

/-- Anatomy of a successful Strategy-1 attempt. -/
theorem strat1Try_eq_some (codec : Codec) (content f : Str)
    (h : strat1Try codec content = some f) :
    codecFix codec content = some f
      ∧ (utf8Encode f).isSome = true
      ∧ f.length < content.length := by
  cases h1 : codecFix codec content with
  | none => simp [strat1Try, h1] at h
  | some g =>
    cases h2 : utf8Encode g with
    | none => simp [strat1Try, h1, h2] at h
    | some bs =>
      simp only [strat1Try, h1, h2] at h
      by_cases h3 : g.length < content.length
      · rw [if_pos h3] at h
        cases h
        exact ⟨rfl, by simp [h2], h3⟩
      · rw [if_neg h3] at h
        exact absurd h (by simp)

/-!  Claim theorems. -/

/-- C1: `fix_mojibake_segment` tries Windows-1252 then Latin-1 in that
fixed order; for the first codec where encode + UTF-8 decode succeed it
returns the twice-reversed result exactly when the second round succeeds,
differs from the once-reversed result and is strictly shorter, otherwise
the once-reversed result; if both candidates fail it returns the input
unchanged — stated as equality with the spec-worded contract. -/
theorem fix_mojibake_segment_meets_contract (text : Str) :
    fix_mojibake_segment text = segmentRepairSpec text := by
  cases h1 : codecFix Codec.cp1252 text with
  | some fixed =>
    simp [fix_mojibake_segment, segmentRepairSpec, mojibakeGo, List.findSome?, h1]
  | none =>
    cases h2 : codecFix Codec.latin1 text with
    | some fixed =>
      simp [fix_mojibake_segment, segmentRepairSpec, mojibakeGo, List.findSome?, h1, h2]
    | none =>
      simp [fix_mojibake_segment, segmentRepairSpec, mojibakeGo, List.findSome?, h1, h2]

/-- C2 counterexample: on the triply-encoded right single quote, the §4.1
primitive (with its collapse check) produces the one-code-point result
U+2019, which is valid UTF-8 and strictly shorter than the input, yet
`fix_encoding` returns something else: its Strategy 1 performs only a
single reversal pass, without the twice-fixed collapse check. -/
theorem strategyA_no_collapse_cex :
    (fix_mojibake_segment [0xC3, 0xA2, 0xE2, 0x201A, 0xAC, 0xE2, 0x201E, 0xA2]).length
        < ([0xC3, 0xA2, 0xE2, 0x201A, 0xAC, 0xE2, 0x201E, 0xA2] : Str).length
      ∧ (utf8Encode (fix_mojibake_segment
          [0xC3, 0xA2, 0xE2, 0x201A, 0xAC, 0xE2, 0x201E, 0xA2])).isSome = true
      ∧ fix_encoding [0xC3, 0xA2, 0xE2, 0x201A, 0xAC, 0xE2, 0x201E, 0xA2]
          ≠ fix_mojibake_segment [0xC3, 0xA2, 0xE2, 0x201A, 0xAC, 0xE2, 0x201E, 0xA2] := by
  refine ⟨by decide, by decide, by decide⟩

/-- C2 amended: Strategy A of `fix_encoding` applies a single-pass codec
reversal (no twice-fixed collapse check) to the entire content across the
codec candidates, accepting a candidate only if it is valid UTF-8 and
strictly shorter than the input; whenever a candidate is accepted it is
the final output of `fix_encoding`, so the line-level and segment-level
strategies do not run. -/
theorem strategyA_accepted_is_final (content full_fix : Str)
    (h : strategy1 content = some full_fix) :
    fix_encoding content = full_fix
      ∧ (codecFix Codec.cp1252 content = some full_fix
          ∨ codecFix Codec.latin1 content = some full_fix)
      ∧ (utf8Encode full_fix).isSome = true
      ∧ full_fix.length < content.length := by
  have hfe : fix_encoding content = full_fix := by
    unfold fix_encoding
    rw [h]
  refine ⟨hfe, ?_⟩
  unfold strategy1 at h
  cases h1 : strat1Try Codec.cp1252 content with
  | some f =>
    rw [h1] at h
    cases h
    have := strat1Try_eq_some Codec.cp1252 content full_fix h1
    exact ⟨Or.inl this.1, this.2.1, this.2.2⟩
  | none =>
    rw [h1] at h
    have := strat1Try_eq_some Codec.latin1 content full_fix h
    exact ⟨Or.inr this.1, this.2.1, this.2.2⟩

/-- Witness for C2 amended, at the doubly-encoded é. -/
theorem strategyA_accepted_is_final_witness :
    fix_encoding [0xC3, 0xA9] = [0xE9]
      ∧ (codecFix Codec.cp1252 [0xC3, 0xA9] = some [0xE9]
          ∨ codecFix Codec.latin1 [0xC3, 0xA9] = some [0xE9])
      ∧ (utf8Encode [0xE9]).isSome = true
      ∧ ([0xE9] : Str).length < ([0xC3, 0xA9] : Str).length :=
  strategyA_accepted_is_final [0xC3, 0xA9] [0xE9] (by decide)

/-- Splitting a list at a block that wholly satisfies `p` and is followed
by a first element that does not. -/
theorem takeWhile_append_all (p : Nat → Bool) (seg post : Str)
    (hall : ∀ c ∈ seg, p c = true) (hpost : ∀ c ∈ post.take 1, p c = false) :
    (seg ++ post).takeWhile p = seg ∧ (seg ++ post).dropWhile p = post := by
  induction seg with
  | nil =>
    cases post with
    | nil => simp
    | cons d ds =>
      have hd : p d = false := hpost d (by simp)
      simp [List.takeWhile, List.dropWhile, hd]
  | cons s ss ih =>
    have hs : p s = true := hall s (by simp)
    have := ih (fun c hc => hall c (by simp [hc]))
    simp [List.takeWhile, List.dropWhile, hs, this.1, this.2]

/-- C3 counterexample: the line ¢Â£ is one maximal run of code points
≥ 0x80, so under the claim it would be handed to the repair primitive as
a single segment (which leaves it unchanged, since ¢ cannot start a valid
UTF-8 sequence); the code instead starts a segment only at the character
Â ≥ 0xC0, repairs just Â£ to £, and the two outputs differ. -/
theorem segment_trigger_cex :
    fix_line_segments [0xA2, 0xC2, 0xA3]
      ≠ fix_line_segments_claim [0xA2, 0xC2, 0xA3] := by
  have h1 : fix_line_segments [0xA2, 0xC2, 0xA3] = [0xA2, 0xA3] := by
    show segGo _ = _
    rw [segGo_cons_low _ _ (by norm_num), segGo_cons_high _ _ (by norm_num)]
    norm_num [List.takeWhile, List.dropWhile, segGo_nil]
    rfl
  have h2 : fix_line_segments_claim [0xA2, 0xC2, 0xA3] = [0xA2, 0xC2, 0xA3] := by
    show segGoClaim _ = _
    rw [segGoClaim_cons_high _ _ (by norm_num)]
    norm_num [List.takeWhile, List.dropWhile, segGoClaim_nil]
    rfl
  rw [h1, h2]
  decide

/-- C3 amended: in Strategy C, a run of consecutive characters with code
point ≥ 0x80 that starts with a character with code point ≥ 0xC0 and is
bounded by lower characters is extracted as one segment and replaced by
the segment-repair primitive's result, while the characters before it
(all with code point < 0xC0) pass through unchanged at their original
relative positions, and scanning continues after the segment. -/
theorem segment_splice (pre seg post : Str)
    (hpre : ∀ c ∈ pre, c < 0xC0)
    (hseg_ne : seg ≠ [])
    (hseg_head : 0xC0 ≤ seg.headD 0)
    (hseg_all : ∀ c ∈ seg, 0x80 ≤ c)
    (hpost : ∀ c ∈ post.take 1, c < 0x80) :
    fix_line_segments (pre ++ (seg ++ post))
      = pre ++ (fix_mojibake_segment seg ++ fix_line_segments post) := by
  induction pre with
  | nil =>
    cases seg with
    | nil => exact absurd rfl hseg_ne
    | cons s0 seg' =>
      have hhead : 0xC0 ≤ s0 := by simpa using hseg_head
      have htd := takeWhile_append_all (fun x => decide (0x80 ≤ x)) (s0 :: seg') post
        (fun c hc => by simpa using hseg_all c hc)
        (fun c hc => by simpa using Nat.not_le.2 (hpost c hc))
      show segGo _ = _
      simp only [List.nil_append, List.cons_append]
      rw [segGo_cons_high s0 (seg' ++ post) hhead]
      rw [show s0 :: (seg' ++ post) = (s0 :: seg') ++ post from rfl, htd.1, htd.2]
      rfl
  | cons c pre' ih =>
    have hc : c < 0xC0 := hpre c (by simp)
    show segGo _ = _
    simp only [List.cons_append]
    rw [segGo_cons_low c _ hc]
    have := ih (fun x hx => hpre x (by simp [hx]))
    simp only [fix_line_segments] at this
    rw [this]
    rfl

/-- Witness for C3 amended: H, then the garbled é segment, then !. -/
theorem segment_splice_witness :
    fix_line_segments [72, 0xC3, 0xA9, 33]
      = [72] ++ (fix_mojibake_segment [0xC3, 0xA9] ++ fix_line_segments [33]) :=
  segment_splice [72] [0xC3, 0xA9] [33]
    (by decide) (by decide) (by decide) (by decide) (by decide)

/-- C6: the two spec scenarios — the garbled right-single-quote line
It<â€™>s great repairs to It’s great, and the garbled em-dash line
wait<â€”>then repairs to wait—then, through the full pipeline. -/
theorem scenario_lines_repair :
    (pipelineFix [73, 116, 0xE2, 0x20AC, 0x2122, 115, 32, 103, 114, 101, 97, 116]).1
        = [73, 116, 0x2019, 115, 32, 103, 114, 101, 97, 116]
      ∧ (pipelineFix [119, 97, 105, 116, 0xE2, 0x20AC, 0x201D, 116, 104, 101, 110]).1
        = [119, 97, 105, 116, 0x2014, 116, 104, 101, 110] := by
  refine ⟨by decide, by decide⟩

/-- C7 counterexample: with one named file that does not exist, the run
reports the failure in its aggregate flag but still exits with status 0 —
`main` never converts per-file failures into a non-zero exit status. -/
theorem exit_status_cex :
    (fun _ => none : FS) [Char.ofNat 109] = none
      ∧ (mainRun (fun _ => none) [[Char.ofNat 109]]).2.1 = false
      ∧ (mainRun (fun _ => none) [[Char.ofNat 109]]).2.2 = 0 := by
  refine ⟨rfl, by decide, by decide⟩

/-- C7 amended: the process exits with a non-zero status exactly when
invoked with no arguments (the usage case, status 1); with at least one
argument it always exits with status 0, regardless of missing files or
residual garbled content — a missing file only flips the aggregate
success flag behind the final console summary. -/
theorem exit_status_usage_only (fs : FS) (argv : List Path) :
    (mainRun fs argv).2.2 = if argv = [] then 1 else 0 := by
  by_cases h : argv = []
  · simp [mainRun, h]
  · simp [mainRun, h]

/-- The backup path is never the file's own path. -/
theorem backupPath_ne (p : Path) : backupPath p ≠ p := by
  intro h
  have := congrArg List.length h
  simp [backupPath] at this

/-- In dry-run mode `fix_file` never changes the file system. -/
theorem fix_file_dry (fs : FS) (p : Path) : (fix_file fs p true).1 = fs := by
  unfold fix_file
  cases fs p with
  | none => rfl
  | some content =>
    dsimp only
    split
    · rfl
    · rfl

/-- C9: when `--check` appears anywhere in the argument list, the whole
invocation runs in dry-run mode and the final file system equals the
initial one — no backup file is created and no file's content changes,
for every file processed. -/
theorem check_flag_no_side_effects (fs : FS) (argv : List Path)
    (h : checkFlag ∈ argv) :
    (mainRun fs argv).1 = fs := by
  have hne : argv ≠ [] := by rintro rfl; simp at h
  have hdry : argv.contains checkFlag = true := by
    simpa [List.contains] using h
  unfold mainRun
  rw [if_neg hne]
  simp only [hdry, if_true]
  generalize removeFirst checkFlag argv = files
  suffices hgen : ∀ (files : List Path) (fs0 : FS) (b : Bool),
      (files.foldl (fun st p =>
        let r := fix_file st.1 p true
        (r.1, st.2 && r.2.2)) (fs0, b)).1 = fs0 by
    exact hgen files fs true
  intro files
  induction files with
  | nil => intro fs0 b; rfl
  | cons p ps ih =>
    intro fs0 b
    simp only [List.foldl_cons]
    rw [show (fix_file fs0 p true).1 = fs0 from fix_file_dry fs0 p]
    exact ih fs0 _

/-- Witness for C9: a dry run over a file that would otherwise change. -/
theorem check_flag_no_side_effects_witness :
    (mainRun (fun q => if q = [Char.ofNat 102] then some [0xC3, 0xA9] else none)
        [checkFlag, [Char.ofNat 102]]).1
      = (fun q => if q = [Char.ofNat 102] then some [0xC3, 0xA9] else none) :=
  check_flag_no_side_effects
    (fun q => if q = [Char.ofNat 102] then some [0xC3, 0xA9] else none)
    [checkFlag, [Char.ofNat 102]] (by simp)

/-- C8: a non-dry-run `fix_file` on an existing file whose repaired
content differs from the original leaves `<path>.backup` holding exactly
the pre-fix content and `<path>` holding exactly the repaired content
(the backup write is applied before the content write in the model's
nested updates), and reports a successful write. -/
theorem backup_fidelity (fs : FS) (p : Path) (content : Str)
    (h1 : fs p = some content)
    (h2 : (pipelineFix content).1 ≠ content) :
    (fix_file fs p false).1 (backupPath p) = some content
      ∧ (fix_file fs p false).1 p = some ((pipelineFix content).1)
      ∧ (fix_file fs p false).2.1 = FileOutcome.written := by
  unfold fix_file
  rw [h1]
  dsimp only
  rw [if_neg (fun he => h2 he.symm)]
  simp only [Bool.false_eq_true, if_false]
  refine ⟨?_, ?_, by trivial⟩
  · simp [fsWrite, backupPath_ne p]
  · simp [fsWrite]

/-- Witness for C8, repairing a file holding the doubly-encoded é. -/
theorem backup_fidelity_witness :
    (fix_file (fun q => if q = [Char.ofNat 102] then some [0xC3, 0xA9] else none)
        [Char.ofNat 102] false).1 (backupPath [Char.ofNat 102]) = some [0xC3, 0xA9]
      ∧ (fix_file (fun q => if q = [Char.ofNat 102] then some [0xC3, 0xA9] else none)
        [Char.ofNat 102] false).1 [Char.ofNat 102] = some ((pipelineFix [0xC3, 0xA9]).1)
      ∧ (fix_file (fun q => if q = [Char.ofNat 102] then some [0xC3, 0xA9] else none)
        [Char.ofNat 102] false).2.1 = FileOutcome.written :=
  backup_fidelity (fun q => if q = [Char.ofNat 102] then some [0xC3, 0xA9] else none)
    [Char.ofNat 102] [0xC3, 0xA9] (by simp) (by decide)

/-- ASCII code points encode to themselves under both codecs. -/
theorem encodeChar_ascii (codec : Codec) (c : Nat) (h : c < 0x80) :
    encodeChar codec c = some c := by
  cases codec with
  | cp1252 => simp [encodeChar, cp1252EncodeChar, h]
  | latin1 => simp [encodeChar, latin1EncodeChar]; omega

/-- ASCII strings encode to themselves under both codecs. -/
theorem encodeStr_ascii (codec : Codec) (s : Str) (h : ∀ c ∈ s, c < 0x80) :
    encodeStr codec s = some s := by
  induction s with
  | nil => rfl
  | cons c rest ih =>
    have hc := h c (by simp)
    have hr := ih (fun x hx => h x (by simp [hx]))
    simp [encodeStr, encodeChar_ascii codec c hc, hr]

/-- ASCII byte strings decode to themselves. -/
theorem utf8Decode_ascii (bs : Bytes) (h : ∀ b ∈ bs, b < 0x80) :
    utf8Decode bs = some bs := by
  induction bs with
  | nil => rfl
  | cons b rest ih =>
    have hb := h b (by simp)
    have hr := ih (fun x hx => h x (by simp [hx]))
    rw [utf8Decode_cons_low b rest hb, hr]
    rfl

/-- Codec reversal is the identity on ASCII strings. -/
theorem codecFix_ascii (codec : Codec) (s : Str) (h : ∀ c ∈ s, c < 0x80) :
    codecFix codec s = some s := by
  simp [codecFix, encodeStr_ascii codec s h, utf8Decode_ascii s h]

/-- ASCII strings UTF-8-encode to themselves. -/
theorem utf8Encode_ascii (s : Str) (h : ∀ c ∈ s, c < 0x80) :
    utf8Encode s = some s := by
  induction s with
  | nil => rfl
  | cons c rest ih =>
    have hc := h c (by simp)
    have hr := ih (fun x hx => h x (by simp [hx]))
    rw [utf8Encode, utf8EncodeChar, if_pos hc, hr]
    rfl

/-- Strategy 1 rejects ASCII content (the reversal is never shorter). -/
theorem strategy1_ascii (s : Str) (h : ∀ c ∈ s, c < 0x80) :
    strategy1 s = none := by
  have h1 : ∀ codec, strat1Try codec s = none := by
    intro codec
    simp [strat1Try, codecFix_ascii codec s h, utf8Encode_ascii s h]
  simp [strategy1, h1]

/-- Splitting never produces an empty list of lines. -/
theorem splitNl_ne_nil (s : Str) : splitNl s ≠ [] := by
  cases s with
  | nil => simp [splitNl]
  | cons c rest =>
    simp only [splitNl]
    cases splitNl rest with
    | nil => simp
    | cons l ls =>
      by_cases hc : c = 10 <;> simp [hc]

/-- Every character of every line comes from the split string. -/
theorem splitNl_mem (s : Str) : ∀ l ∈ splitNl s, ∀ c ∈ l, c ∈ s := by
  induction s with
  | nil => simp [splitNl]
  | cons c rest ih =>
    intro l hl x hx
    simp only [splitNl] at hl
    cases hsp : splitNl rest with
    | nil => exact absurd hsp (splitNl_ne_nil rest)
    | cons m ms =>
      rw [hsp] at hl
      dsimp only at hl
      by_cases hc : c = 10
      · rw [if_pos hc] at hl
        rcases List.mem_cons.1 hl with h1 | h1
        · subst h1; simp at hx
        · exact List.mem_cons_of_mem c (ih l (by rw [hsp]; exact h1) x hx)
      · rw [if_neg hc] at hl
        rcases List.mem_cons.1 hl with h1 | h1
        · subst h1
          rcases List.mem_cons.1 hx with h2 | h2
          · simp [h2]
          · exact List.mem_cons_of_mem c (ih m (by simp [hsp]) x h2)
        · exact List.mem_cons_of_mem c
            (ih l (by rw [hsp]; exact List.mem_cons_of_mem m h1) x hx)

/-- Joining after prepending a character to the first line. -/
theorem joinNl_cons_cons (l : Str) (c : Nat) (ls : List Str) :
    joinNl ((c :: l) :: ls) = c :: joinNl (l :: ls) := by
  cases ls with
  | nil => rfl
  | cons m ms => rfl

/-- Splitting on newlines and rejoining is the identity. -/
theorem joinNl_splitNl (s : Str) : joinNl (splitNl s) = s := by
  induction s with
  | nil => rfl
  | cons c rest ih =>
    simp only [splitNl]
    cases hsp : splitNl rest with
    | nil => exact absurd hsp (splitNl_ne_nil rest)
    | cons m ms =>
      dsimp only
      by_cases hc : c = 10
      · rw [if_pos hc]
        subst hc
        show 10 :: joinNl (m :: ms) = 10 :: rest
        rw [← hsp, ih]
      · rw [if_neg hc, joinNl_cons_cons, ← hsp, ih]

/-- Mapping a function that fixes every element is the identity. -/
theorem map_id_of {α : Type} (f : α → α) (l : List α) (h : ∀ x ∈ l, f x = x) :
    l.map f = l := by
  induction l with
  | nil => rfl
  | cons a rest ih =>
    simp only [List.map_cons]
    rw [h a (by simp), ih (fun x hx => h x (by simp [hx]))]

/-- Lines of ASCII characters are left unchanged by Strategy 2. -/
theorem fixLine_ascii (line : Str) (h : ∀ c ∈ line, c < 0x80) :
    fixLine line = line := by
  simp [fixLine, codecFix_ascii Codec.cp1252 line h]

/-- `fix_encoding` is the identity on ASCII content. -/
theorem fix_encoding_ascii (content : Str) (h : ∀ c ∈ content, c < 0x80) :
    fix_encoding content = content := by
  unfold fix_encoding
  rw [strategy1_ascii content h]
  have hmap : (splitNl content).map fixLine = splitNl content := by
    apply map_id_of
    intro l hl
    exact fixLine_ascii l (fun c hc => h c (splitNl_mem content l hl c hc))
  rw [hmap, joinNl_splitNl]

/-- A conditional-replacement fold over patterns none of which occur is
the identity. -/
theorem foldl_replace_id (l : List (Str × Str)) (s : Str)
    (h : ∀ pr ∈ l, occursIn pr.1 s = false) :
    l.foldl (fun acc gc => if occursIn gc.1 acc then replaceAll gc.1 gc.2 acc else acc) s
      = s := by
  induction l with
  | nil => rfl
  | cons pr prs ih =>
    simp only [List.foldl_cons]
    rw [h pr (by simp), if_neg (by simp)]
    exact ih (fun x hx => h x (by simp [hx]))

/-- A pattern containing a high code point cannot occur in a string of
low code points. -/
theorem no_high_no_occurs (pat s : Str) (x : Nat) (hx : x ∈ pat) (hhigh : 0x80 ≤ x)
    (hs : ∀ c ∈ s, c < 0x80) : occursIn pat s = false :=
  occursIn_eq_false pat s x hx (fun hmem => absurd (hs x hmem) (by omega))

/-- The control-character pass is the identity on ASCII content. -/
theorem controlPass_ascii (s : Str) (h : ∀ c ∈ s, c < 0x80) :
    controlPass s = s := by
  unfold controlPass
  apply foldl_replace_id
  intro pr hpr
  have : ∃ x ∈ pr.1, 0x80 ≤ x := by
    fin_cases hpr <;> exact ⟨0xE2, by simp, by norm_num⟩
  obtain ⟨x, hx1, hx2⟩ := this
  exact no_high_no_occurs pr.1 s x hx1 hx2 h

/-- The residual scanner finds nothing in ASCII content. -/
theorem scan_ascii (s : Str) (h : ∀ c ∈ s, c < 0x80) :
    scan_remaining_issues s = [] := by
  unfold scan_remaining_issues
  rw [List.filterMap_eq_nil_iff]
  intro p hp
  have : ∃ x ∈ p, 0x80 ≤ x := by
    fin_cases hp
    · exact ⟨0xE2, by simp, by norm_num⟩
    · exact ⟨0xE2, by simp, by norm_num⟩
    · exact ⟨0xE2, by simp, by norm_num⟩
    · exact ⟨0xE2, by simp, by norm_num⟩
    · exact ⟨0xC2, by simp, by norm_num⟩
    · exact ⟨0xC3, by simp, by norm_num⟩
    · exact ⟨0xC3, by simp, by norm_num⟩
    · exact ⟨0xC3, by simp, by norm_num⟩
    · exact ⟨0xC3, by simp, by norm_num⟩
    · exact ⟨0xC3, by simp, by norm_num⟩
  obtain ⟨x, hx1, hx2⟩ := this
  simp [no_high_no_occurs p s x hx1 hx2 h]

/-- C4: on content whose code points are all below 0x80 the full repair
pipeline is the identity with a zero fallback count, and `fix_file` on a
file holding such content reports no issues, returns success, and leaves
the file system untouched (no write, no backup), dry-run or not. -/
theorem clean_input_identity (content : Str) (h : ∀ c ∈ content, c < 0x80) :
    pipelineFix content = (content, 0)
      ∧ ∀ (fs : FS) (p : Path) (dry : Bool), fs p = some content →
          fix_file fs p dry = (fs, FileOutcome.noIssues, true) := by
  have hpipe : pipelineFix content = (content, 0) := by
    unfold pipelineFix
    rw [fix_encoding_ascii content h]
    dsimp only
    rw [controlPass_ascii content h, scan_ascii content h]
    rfl
  refine ⟨hpipe, ?_⟩
  intro fs p dry hfs
  unfold fix_file
  rw [hfs]
  dsimp only
  rw [hpipe]
  simp

/-- Witness for C4, on the ASCII content "hi". -/
theorem clean_input_identity_witness :
    pipelineFix [104, 105] = ([104, 105], 0)
      ∧ fix_file (fun q => if q = [Char.ofNat 102] then some [104, 105] else none)
          [Char.ofNat 102] false
        = ((fun q => if q = [Char.ofNat 102] then some [104, 105] else none),
           FileOutcome.noIssues, true) :=
  ⟨(clean_input_identity [104, 105] (by decide)).1,
   (clean_input_identity [104, 105] (by decide)).2
     (fun q => if q = [Char.ofNat 102] then some [104, 105] else none)
     [Char.ofNat 102] false (by simp)⟩

/-!  Newline-count preservation (claim C10). -/

 

theorem countCh_append (x : Nat) (s t : Str) :
    countCh x (s ++ t) = countCh x s + countCh x t := by
  induction s with
  | nil => simp [countCh]
  | cons c rest ih => simp [countCh, ih]; omega

theorem cp1252Table_high (c b : Nat) (h : cp1252Table c = some b) : 0x80 ≤ b := by
  unfold cp1252Table at h
  split at h <;> simp_all <;> omega

theorem encodeChar_ten (codec : Codec) (c b : Nat) (h : encodeChar codec c = some b) :
    (b = 10 ↔ c = 10) := by
  cases codec with
  | cp1252 =>
    simp only [encodeChar, cp1252EncodeChar] at h
    by_cases h1 : c < 0x80
    · rw [if_pos h1] at h; cases h; rfl
    · rw [if_neg h1] at h
      by_cases h2 : 0xA0 ≤ c ∧ c ≤ 0xFF
      · rw [if_pos h2] at h; cases h
        constructor <;> (intro hh; omega)
      · rw [if_neg h2] at h
        have := cp1252Table_high c b h
        constructor <;> (intro hh; omega)
  | latin1 =>
    simp only [encodeChar, latin1EncodeChar] at h
    by_cases h1 : c ≤ 0xFF
    · rw [if_pos h1] at h; cases h; rfl
    · rw [if_neg h1] at h; cases h

theorem encodeStr_count (codec : Codec) (s : Str) (bs : Bytes)
    (h : encodeStr codec s = some bs) : countCh 10 bs = countCh 10 s := by
  induction s generalizing bs with
  | nil => cases h; rfl
  | cons c rest ih =>
    simp only [encodeStr] at h
    cases h1 : encodeChar codec c with
    | none => rw [h1] at h; cases h
    | some b =>
      cases h2 : encodeStr codec rest with
      | none => rw [h1, h2] at h; cases h
      | some br =>
        rw [h1, h2] at h
        cases h
        have hten := encodeChar_ten codec c b h1
        simp only [countCh]
        rw [ih br h2]
        by_cases hb : b = 10
        · rw [if_pos hb, if_pos (hten.1 hb)]
        · rw [if_neg hb, if_neg (fun hc => hb (hten.2 hc))]

theorem cpOf2_big (b b1 : Nat) (h1 : 0xC2 ≤ b) (h2 : b < 0xE0) :
    0x80 ≤ cpOf2 b b1 := by
  unfold cpOf2
  omega

theorem cpOf3_big (b b1 b2 : Nat) (h1 : 0xE0 ≤ b) (h2 : b < 0xF0)
    (hv : validB1three b b1 = true) : 0x800 ≤ cpOf3 b b1 b2 := by
  unfold cpOf3
  unfold validB1three at hv
  by_cases he : b = 0xE0
  · rw [if_pos he] at hv
    simp at hv
    subst he
    omega
  · rw [if_neg he] at hv
    omega

theorem cpOf4_big (b b1 b2 b3 : Nat) (h1 : 0xF0 ≤ b) (h2 : b < 0xF5)
    (hv : validB1four b b1 = true) : 0x10000 ≤ cpOf4 b b1 b2 b3 := by
  unfold cpOf4
  unfold validB1four at hv
  by_cases he : b = 0xF0
  · rw [if_pos he] at hv
    simp at hv
    subst he
    omega
  · rw [if_neg he] at hv
    omega

theorem utf8DecodeF_count (fuel : Nat) : ∀ (bs : Bytes) (s : Str),
    utf8DecodeF fuel bs = some s → countCh 10 s = countCh 10 bs := by
  induction fuel with
  | zero =>
    intro bs s h
    cases bs with
    | nil => cases h; rfl
    | cons b rest => cases h
  | succ fuel ih =>
    intro bs s h
    cases bs with
    | nil => cases h; rfl
    | cons b rest =>
      simp only [utf8DecodeF] at h
      by_cases h1 : b < 0x80
      · rw [if_pos h1] at h
        cases h2 : utf8DecodeF fuel rest with
        | none => rw [h2] at h; cases h
        | some t =>
          rw [h2] at h
          cases h
          simp only [countCh]
          rw [ih rest t h2]
      · rw [if_neg h1] at h
        by_cases h2 : b < 0xC2
        · rw [if_pos h2] at h; cases h
        · rw [if_neg h2] at h
          by_cases h3 : b < 0xE0
          · rw [if_pos h3] at h
            cases rest with
            | nil => cases h
            | cons b1 rest2 =>
              dsimp only at h
              by_cases hc : isCont b1
              · rw [if_pos hc] at h
                cases h4 : utf8DecodeF fuel rest2 with
                | none => rw [h4] at h; cases h
                | some t =>
                  rw [h4] at h
                  cases h
                  have hcp := cpOf2_big b b1 (by omega) h3
                  have hb1 : 0x80 ≤ b1 := by
                    simp [isCont] at hc; omega
                  simp only [countCh]
                  rw [ih rest2 t h4,
                      if_neg (by omega), if_neg (by omega), if_neg (by omega)]
                  omega
              · rw [if_neg hc] at h; cases h
          · rw [if_neg h3] at h
            by_cases h4 : b < 0xF0
            · rw [if_pos h4] at h
              cases rest with
              | nil => cases h
              | cons b1 rest' =>
                cases rest' with
                | nil => cases h
                | cons b2 rest3 =>
                  dsimp only at h
                  by_cases hc : validB1three b b1 && isCont b2
                  · rw [if_pos hc] at h
                    cases h5 : utf8DecodeF fuel rest3 with
                    | none => rw [h5] at h; cases h
                    | some t =>
                      rw [h5] at h
                      cases h
                      simp only [Bool.and_eq_true] at hc
                      have hcp := cpOf3_big b b1 b2 (by omega) h4 hc.1
                      have hb1 : 0x80 ≤ b1 := by
                        have hv := hc.1
                        unfold validB1three at hv
                        by_cases he : b = 0xE0
                        · rw [if_pos he] at hv; simp at hv; omega
                        · rw [if_neg he] at hv
                          by_cases hed : b = 0xED
                          · rw [if_pos hed] at hv; simp at hv; omega
                          · rw [if_neg hed] at hv; simp [isCont] at hv; omega
                      have hb2 : 0x80 ≤ b2 := by
                        have := hc.2
                        simp [isCont] at this; omega
                      simp only [countCh]
                      rw [ih rest3 t h5, if_neg (by omega), if_neg (by omega),
                          if_neg (by omega), if_neg (by omega)]
                      omega
                  · rw [if_neg hc] at h; cases h
            · rw [if_neg h4] at h
              by_cases h5 : b < 0xF5
              · rw [if_pos h5] at h
                cases rest with
                | nil => cases h
                | cons b1 rest' =>
                  cases rest' with
                  | nil => cases h
                  | cons b2 rest'' =>
                    cases rest'' with
                    | nil => cases h
                    | cons b3 rest4 =>
                      dsimp only at h
                      by_cases hc : validB1four b b1 && isCont b2 && isCont b3
                      · rw [if_pos hc] at h
                        cases h6 : utf8DecodeF fuel rest4 with
                        | none => rw [h6] at h; cases h
                        | some t =>
                          rw [h6] at h
                          cases h
                          simp only [Bool.and_eq_true] at hc
                          have hcp := cpOf4_big b b1 b2 b3 (by omega) h5 hc.1.1
                          have hb1 : 0x80 ≤ b1 := by
                            have hv := hc.1.1
                            unfold validB1four at hv
                            by_cases he : b = 0xF0
                            · rw [if_pos he] at hv; simp at hv; omega
                            · rw [if_neg he] at hv
                              by_cases hf4 : b = 0xF4
                              · rw [if_pos hf4] at hv; simp at hv; omega
                              · rw [if_neg hf4] at hv; simp [isCont] at hv; omega
                          have hb2 : 0x80 ≤ b2 := by
                            have := hc.1.2
                            simp [isCont] at this; omega
                          have hb3 : 0x80 ≤ b3 := by
                            have := hc.2
                            simp [isCont] at this; omega
                          simp only [countCh]
                          rw [ih rest4 t h6, if_neg (by omega), if_neg (by omega),
                              if_neg (by omega), if_neg (by omega), if_neg (by omega)]
                          omega
                      · rw [if_neg hc] at h; cases h
              · rw [if_neg h5] at h; cases h

theorem utf8Decode_count (bs : Bytes) (s : Str) (h : utf8Decode bs = some s) :
    countCh 10 s = countCh 10 bs :=
  utf8DecodeF_count bs.length bs s h

theorem codecFix_count (codec : Codec) (s t : Str) (h : codecFix codec s = some t) :
    countCh 10 t = countCh 10 s := by
  unfold codecFix at h
  cases h1 : encodeStr codec s with
  | none => rw [h1] at h; cases h
  | some bs =>
    rw [h1] at h
    simp only [Option.some_bind] at h
    rw [utf8Decode_count bs t h, encodeStr_count codec s bs h1]


 

theorem countCh_nil (x : Nat) : countCh x [] = 0 := rfl

theorem countCh_cons_eq (x : Nat) (s : Str) :
    countCh x (x :: s) = 1 + countCh x s := by simp [countCh]

theorem countCh_cons_ne (x c : Nat) (s : Str) (h : c ≠ x) :
    countCh x (c :: s) = countCh x s := by simp [countCh, h]

theorem mojibakeGo_count (codecs : List Codec) (s : Str) :
    countCh 10 (mojibakeGo codecs s) = countCh 10 s := by
  induction codecs with
  | nil => rfl
  | cons codec rest ih =>
    rw [mojibakeGo]
    cases h1 : codecFix codec s with
    | none => exact ih
    | some f =>
      dsimp only
      cases h2 : codecFix codec f with
      | some f2 =>
        dsimp only
        split
        · rw [codecFix_count _ _ _ h2, codecFix_count _ _ _ h1]
        · exact codecFix_count _ _ _ h1
      | none => exact codecFix_count _ _ _ h1

theorem fix_mojibake_segment_count (s : Str) :
    countCh 10 (fix_mojibake_segment s) = countCh 10 s :=
  mojibakeGo_count [Codec.cp1252, Codec.latin1] s

theorem segGo_count (s : Str) : countCh 10 (segGo s) = countCh 10 s := by
  suffices hgen : ∀ (n : Nat) (s : Str), s.length ≤ n →
      countCh 10 (segGo s) = countCh 10 s from hgen s.length s (Nat.le_refl _)
  intro n
  induction n with
  | zero =>
    intro s hs
    have : s = [] := List.eq_nil_of_length_eq_zero (by omega)
    subst this
    rw [segGo_nil]
  | succ n ih =>
    intro s hs
    cases s with
    | nil => rw [segGo_nil]
    | cons c rest =>
      by_cases hc : 0xC0 ≤ c
      · rw [segGo_cons_high c rest hc, countCh_append]
        have hdrop : ((c :: rest).dropWhile (fun x => decide (0x80 ≤ x))).length
            ≤ rest.length := by
          simp only [List.dropWhile_cons]
          rw [show (decide (0x80 ≤ c)) = true by simp; omega]
          simp only [if_true]
          exact dropWhile_length_le (fun x => decide (0x80 ≤ x)) rest
        rw [fix_mojibake_segment_count,
            ih _ (by simp at hs; omega)]
        rw [← countCh_append, List.takeWhile_append_dropWhile]
      · push_neg at hc
        rw [segGo_cons_low c rest hc]
        simp only [countCh]
        rw [ih rest (by simp at hs; omega)]

theorem fixLine_count (line : Str) :
    countCh 10 (fixLine line) = countCh 10 line := by
  unfold fixLine
  cases h1 : codecFix Codec.cp1252 line with
  | some c => exact codecFix_count _ _ _ h1
  | none =>
    dsimp only
    cases h2 : codecFix Codec.latin1 line with
    | some c => exact codecFix_count _ _ _ h2
    | none => exact segGo_count line

theorem countCh_joinNl (ls : List Str) (hne : ls ≠ []) :
    countCh 10 (joinNl ls) = ls.length - 1 + (ls.map (countCh 10)).sum := by
  induction ls with
  | nil => exact absurd rfl hne
  | cons l rest ih =>
    cases rest with
    | nil => simp [joinNl, countCh]
    | cons m ms =>
      rw [show joinNl (l :: m :: ms) = l ++ 10 :: joinNl (m :: ms) from rfl,
          countCh_append, countCh_cons_eq, ih (by simp)]
      simp only [List.length_cons, List.map_cons, List.sum_cons]
      omega

theorem countCh_splitNl (s : Str) :
    (splitNl s).length - 1 + ((splitNl s).map (countCh 10)).sum = countCh 10 s := by
  induction s with
  | nil => simp [splitNl, countCh]
  | cons c rest ih =>
    simp only [splitNl]
    cases hsp : splitNl rest with
    | nil => exact absurd hsp (splitNl_ne_nil rest)
    | cons m ms =>
      rw [hsp] at ih
      dsimp only
      by_cases hc : c = 10
      · rw [if_pos hc]
        subst hc
        rw [countCh_cons_eq]
        simp only [List.length_cons, List.map_cons, List.sum_cons, countCh_nil] at *
        omega
      · rw [if_neg hc, countCh_cons_ne 10 c rest hc]
        simp only [List.length_cons, List.map_cons, List.sum_cons] at *
        rw [countCh_cons_ne 10 c m hc]
        omega

theorem fix_encoding_count (content : Str) :
    countCh 10 (fix_encoding content) = countCh 10 content := by
  unfold fix_encoding
  cases h1 : strategy1 content with
  | some f =>
    dsimp only
    unfold strategy1 at h1
    cases h2 : strat1Try Codec.cp1252 content with
    | some g =>
      rw [h2] at h1
      cases h1
      exact codecFix_count _ _ _ (strat1Try_eq_some Codec.cp1252 content f h2).1
    | none =>
      rw [h2] at h1
      exact codecFix_count _ _ _ (strat1Try_eq_some Codec.latin1 content f h1).1
  | none =>
    dsimp only
    rw [countCh_joinNl _ (by simp [splitNl_ne_nil])]
    have hmap : ((splitNl content).map fixLine).map (countCh 10)
        = (splitNl content).map (countCh 10) := by
      rw [List.map_map]
      apply List.map_congr_left
      intro l hl
      exact fixLine_count l
    rw [hmap, List.length_map, countCh_splitNl]

theorem drop_of_leadsWith (pat s : Str) (h : leadsWith pat s = true) :
    s = pat ++ s.drop pat.length := by
  obtain ⟨t, rfl⟩ := (leadsWith_iff pat s).1 h
  rw [List.drop_left]

theorem replaceAll_count (pat rep : Str) (hp : pat ≠ [])
    (hpat : countCh 10 pat = 0) (hrep : countCh 10 rep = 0) (s : Str) :
    countCh 10 (replaceAll pat rep s) = countCh 10 s := by
  suffices hgen : ∀ (n : Nat) (s : Str), s.length ≤ n →
      countCh 10 (replaceAll pat rep s) = countCh 10 s from
    hgen s.length s (Nat.le_refl _)
  intro n
  induction n with
  | zero =>
    intro s hs
    have : s = [] := List.eq_nil_of_length_eq_zero (by omega)
    subst this
    rw [replaceAll_nil]
  | succ n ih =>
    intro s hs
    cases s with
    | nil => rw [replaceAll_nil]
    | cons c rest =>
      by_cases hl : leadsWith pat (c :: rest) = true
      · rw [replaceAll_step pat rep (c :: rest) hp hl, countCh_append]
        have hplen : 1 ≤ pat.length := by
          cases pat with
          | nil => exact absurd rfl hp
          | cons _ _ => simp
        have hdlen : ((c :: rest).drop pat.length).length ≤ n := by
          simp only [List.length_drop, List.length_cons]
          simp only [List.length_cons] at hs
          omega
        rw [ih _ hdlen, hrep]
        conv_rhs => rw [drop_of_leadsWith pat (c :: rest) hl]
        rw [countCh_append, hpat]
      · rw [replaceAll_skip pat rep c rest (by simp [hl])]
        simp only [countCh]
        rw [ih rest (by simp at hs; omega)]

theorem control_fold_count (l : List (Str × Str)) (s : Str)
    (h : ∀ pr ∈ l, pr.1 ≠ [] ∧ countCh 10 pr.1 = 0 ∧ countCh 10 pr.2 = 0) :
    countCh 10 (l.foldl
      (fun acc gc => if occursIn gc.1 acc then replaceAll gc.1 gc.2 acc else acc) s)
      = countCh 10 s := by
  induction l generalizing s with
  | nil => rfl
  | cons pr prs ih =>
    simp only [List.foldl_cons]
    have hpr := h pr (by simp)
    have hrest := fun x hx => h x (List.mem_cons_of_mem pr hx)
    by_cases ho : occursIn pr.1 s
    · rw [if_pos ho, ih _ hrest, replaceAll_count pr.1 pr.2 hpr.1 hpr.2.1 hpr.2.2 s]
    · rw [if_neg ho, ih _ hrest]

theorem controlPass_count (s : Str) : countCh 10 (controlPass s) = countCh 10 s := by
  unfold controlPass
  apply control_fold_count
  intro pr hpr
  fin_cases hpr <;> refine ⟨by simp, by simp [countCh], by simp [countCh]⟩

theorem known_fold_count (l : List (Str × Str × String)) (s : Str) (k : Nat)
    (h : ∀ r ∈ l, r.1 ≠ [] ∧ countCh 10 r.1 = 0 ∧ countCh 10 r.2.1 = 0) :
    countCh 10 ((l.foldl
      (fun acc r =>
        if occursIn r.1 acc.1 then
          (replaceAll r.1 r.2.1 acc.1, acc.2 + countOcc r.1 acc.1)
        else acc) (s, k)).1)
      = countCh 10 s := by
  induction l generalizing s k with
  | nil => rfl
  | cons r rs ih =>
    simp only [List.foldl_cons]
    have hr := h r (by simp)
    have hrest := fun x hx => h x (List.mem_cons_of_mem r hx)
    by_cases ho : occursIn r.1 s
    · rw [if_pos ho]
      rw [ih _ _ hrest, replaceAll_count r.1 r.2.1 hr.1 hr.2.1 hr.2.2 s]
    · rw [if_neg ho, ih _ _ hrest]

theorem apply_known_replacements_count (s : Str) :
    countCh 10 (apply_known_replacements s).1 = countCh 10 s := by
  unfold apply_known_replacements
  apply known_fold_count
  intro r hr
  fin_cases hr <;> refine ⟨by simp, by simp [countCh], by simp [countCh]⟩

/-- C10: the full repair pipeline preserves the number of newline
characters (U+000A): Strategy 1 is a codec round trip in which the byte 10
and the code point 10 only ever map to each other, Strategies 2/3 rewrite
the newline-free lines between the newlines that `join` restores, and
every replacement-table pattern and replacement is newline-free. -/
theorem newline_count_preserved (content : Str) :
    countCh 10 (pipelineFix content).1 = countCh 10 content := by
  unfold pipelineFix
  dsimp only
  split
  · rw [controlPass_count, fix_encoding_count]
  · rw [apply_known_replacements_count, controlPass_count, fix_encoding_count]

/-!  Repeated-content lemmas (claim C5). -/

theorem repS_length (n : Nat) (g : Str) : (repS n g).length = n * g.length := by
  induction n with
  | zero => simp [repS]
  | succ n ih => simp [repS, ih, Nat.succ_mul]; omega

theorem mem_repS (n : Nat) (g : Str) (c : Nat) (h : c ∈ repS n g) : c ∈ g := by
  induction n with
  | zero => simp [repS] at h
  | succ n ih =>
    simp only [repS, List.mem_append] at h
    rcases h with h | h
    · exact h
    · exact ih h

theorem repS_single (n c : Nat) : repS n [c] = List.replicate n c := by
  induction n with
  | zero => rfl
  | succ n ih => simp [repS, ih, List.replicate_succ]

theorem encodeStr_append_some (codec : Codec) (s t : Str) (a : Bytes)
    (h : encodeStr codec s = some a) :
    encodeStr codec (s ++ t) = (encodeStr codec t).map (fun b => a ++ b) := by
  induction s generalizing a with
  | nil =>
    cases h
    simp only [List.nil_append]
    cases encodeStr codec t <;> rfl
  | cons c rest ih =>
    simp only [encodeStr] at h
    cases h1 : encodeChar codec c with
    | none => rw [h1] at h; cases h
    | some b =>
      cases h2 : encodeStr codec rest with
      | none => rw [h1, h2] at h; cases h
      | some br =>
        rw [h1, h2] at h
        cases h
        show encodeStr codec (c :: (rest ++ t)) = _
        simp only [encodeStr]
        rw [h1, ih br h2]
        cases encodeStr codec t with
        | none => rfl
        | some bt => rfl

theorem encodeStr_none_of_bad (codec : Codec) (s : Str) (c0 : Nat)
    (hmem : c0 ∈ s) (hbad : encodeChar codec c0 = none) :
    encodeStr codec s = none := by
  induction s with
  | nil => simp at hmem
  | cons c rest ih =>
    rcases List.mem_cons.1 hmem with h | h
    · subst h
      simp [encodeStr, hbad]
    · simp only [encodeStr]
      rw [ih h]
      cases encodeChar codec c <;> rfl

theorem encodeStr_repS (codec : Codec) (g : Str) (B : Bytes) (n : Nat)
    (h : encodeStr codec g = some B) :
    encodeStr codec (repS n g) = some (repS n B) := by
  induction n with
  | zero => rfl
  | succ n ih =>
    simp only [repS]
    rw [encodeStr_append_some codec g (repS n g) B h, ih]
    rfl

theorem utf8Decode_repS (B : Bytes) (c : Nat) (n : Nat)
    (h : ∀ rest, utf8Decode (B ++ rest) = (utf8Decode rest).map (fun s => c :: s)) :
    utf8Decode (repS n B) = some (List.replicate n c) := by
  induction n with
  | zero => rfl
  | succ n ih =>
    simp only [repS]
    rw [h (repS n B), ih]
    simp [List.replicate_succ]

theorem utf8Encode_replicate (c : Nat) (bc : Bytes) (n : Nat)
    (h : utf8EncodeChar c = some bc) :
    utf8Encode (List.replicate n c) = some (repS n bc) := by
  induction n with
  | zero => rfl
  | succ n ih =>
    rw [List.replicate_succ, utf8Encode, h, ih]
    rfl

theorem strat1_rep (g : Str) (B : Bytes) (c : Nat) (bc : Bytes) (n : Nat)
    (hn : 1 ≤ n)
    (henc : encodeStr Codec.cp1252 g = some B)
    (hdec : ∀ rest, utf8Decode (B ++ rest) = (utf8Decode rest).map (fun s => c :: s))
    (hec : utf8EncodeChar c = some bc)
    (hlen : 2 ≤ g.length) :
    strategy1 (repS n g) = some (List.replicate n c) := by
  have h1 : strat1Try Codec.cp1252 (repS n g) = some (List.replicate n c) := by
    unfold strat1Try codecFix
    rw [encodeStr_repS Codec.cp1252 g B n henc]
    simp only [Option.some_bind]
    rw [utf8Decode_repS B c n hdec]
    dsimp only
    rw [utf8Encode_replicate c bc n hec]
    dsimp only
    rw [if_pos (by rw [List.length_replicate, repS_length]; nlinarith)]
  unfold strategy1
  rw [h1]

theorem scan_eq_nil (s : Str) (h : ∀ p ∈ known_garbled, occursIn p s = false) :
    scan_remaining_issues s = [] := by
  unfold scan_remaining_issues
  rw [List.filterMap_eq_nil_iff]
  intro p hp
  simp [h p hp]

theorem not_occursIn_replicate (pat : Str) (n c x : Nat)
    (hx : x ∈ pat) (hne : x ≠ c) : occursIn pat (List.replicate n c) = false := by
  apply occursIn_eq_false pat _ x hx
  intro hmem
  exact hne (List.eq_of_mem_replicate hmem)

theorem pipeline_strat1_entry (g : Str) (B : Bytes) (c : Nat) (bc : Bytes) (n : Nat)
    (hn : 1 ≤ n)
    (henc : encodeStr Codec.cp1252 g = some B)
    (hdec : ∀ rest, utf8Decode (B ++ rest) = (utf8Decode rest).map (fun s => c :: s))
    (hec : utf8EncodeChar c = some bc)
    (hlen : 2 ≤ g.length)
    (hctrl : ∀ pr ∈ control_char_fixes, ∃ x ∈ pr.1, x ≠ c)
    (hscan : ∀ p ∈ known_garbled, ∃ x ∈ p, x ≠ c) :
    pipelineFix (repS n g) = (List.replicate n c, 0) := by
  have hfe : fix_encoding (repS n g) = List.replicate n c := by
    unfold fix_encoding
    rw [strat1_rep g B c bc n hn henc hdec hec hlen]
  have hcp : controlPass (List.replicate n c) = List.replicate n c := by
    unfold controlPass
    apply foldl_replace_id
    intro pr hpr
    obtain ⟨x, hx1, hx2⟩ := hctrl pr hpr
    exact not_occursIn_replicate pr.1 n c x hx1 hx2
  have hsc : scan_remaining_issues (List.replicate n c) = [] := by
    apply scan_eq_nil
    intro p hp
    obtain ⟨x, hx1, hx2⟩ := hscan p hp
    exact not_occursIn_replicate p n c x hx1 hx2
  unfold pipelineFix
  dsimp only
  rw [hfe, hcp, hsc]
  simp


 

theorem splitNl_no_nl (s : Str) (h : ∀ c ∈ s, c ≠ 10) : splitNl s = [s] := by
  induction s with
  | nil => rfl
  | cons c rest ih =>
    simp only [splitNl]
    rw [ih (fun x hx => h x (by simp [hx]))]
    dsimp only
    rw [if_neg (h c (by simp))]

theorem leadsWith_repS (g : Str) (n : Nat) (hn : 1 ≤ n) :
    leadsWith g (repS n g) = true := by
  cases n with
  | zero => omega
  | succ m => exact leadsWith_append g (repS m g)

theorem replaceAll_repS (g rep : Str) (hg : g ≠ []) (n : Nat) :
    replaceAll g rep (repS n g) = repS n rep := by
  induction n with
  | zero => exact replaceAll_nil g rep
  | succ n ih =>
    show replaceAll g rep (g ++ repS n g) = rep ++ repS n rep
    rw [replaceAll_step g rep _ hg (leadsWith_append g (repS n g)), List.drop_left, ih]

theorem countOcc_repS (g : Str) (hg : g ≠ []) (n : Nat) :
    countOcc g (repS n g) = n := by
  induction n with
  | zero => exact countOcc_nil g
  | succ n ih =>
    show countOcc g (g ++ repS n g) = n + 1
    rw [countOcc_step g _ hg (leadsWith_append g (repS n g)), List.drop_left, ih]
    omega

theorem mem_repS_of_mem (g : Str) (n : Nat) (c : Nat) (hn : 1 ≤ n) (h : c ∈ g) :
    c ∈ repS n g := by
  cases n with
  | zero => omega
  | succ m => exact List.mem_append_left (repS m g) h

theorem not_occursIn_repS (pat g : Str) (n x : Nat) (hx : x ∈ pat) (hng : x ∉ g) :
    occursIn pat (repS n g) = false :=
  occursIn_eq_false pat _ x hx (fun h => hng (mem_repS n g x h))

theorem codecFix_none (codec : Codec) (s : Str) (h : encodeStr codec s = none) :
    codecFix codec s = none := by
  simp [codecFix, h]

theorem fix_mojibake_segment_fail (s : Str)
    (h1 : codecFix Codec.cp1252 s = none) (h2 : codecFix Codec.latin1 s = none) :
    fix_mojibake_segment s = s := by
  simp [fix_mojibake_segment, mojibakeGo, h1, h2]

theorem segGo_whole_high (s : Str) (hne : s ≠ []) (hhead : 0xC0 ≤ s.headD 0)
    (hall : ∀ c ∈ s, 0x80 ≤ c) :
    segGo s = fix_mojibake_segment s := by
  cases s with
  | nil => exact absurd rfl hne
  | cons c rest =>
    rw [segGo_cons_high c rest (by simpa using hhead)]
    have htd := takeWhile_append_all (fun x => decide (0x80 ≤ x)) (c :: rest) []
      (fun x hx => by simpa using hall x hx) (by simp)
    rw [show (c :: rest) ++ ([] : Str) = c :: rest from by simp] at htd
    rw [htd.1, htd.2, segGo_nil, List.append_nil]

theorem strategy1_none (s : Str)
    (h1 : codecFix Codec.cp1252 s = none) (h2 : codecFix Codec.latin1 s = none) :
    strategy1 s = none := by
  simp [strategy1, strat1Try, h1, h2]

theorem fix_encoding_seg_fail (s : Str)
    (henc1 : codecFix Codec.cp1252 s = none) (henc2 : codecFix Codec.latin1 s = none)
    (hnl : ∀ c ∈ s, c ≠ 10) (hne : s ≠ []) (hhead : 0xC0 ≤ s.headD 0)
    (hall : ∀ c ∈ s, 0x80 ≤ c) :
    fix_encoding s = s := by
  unfold fix_encoding
  rw [strategy1_none s henc1 henc2, splitNl_no_nl s hnl]
  simp only [List.map_cons, List.map_nil]
  rw [show fixLine s = fix_line_segments s from by simp [fixLine, henc1, henc2]]
  show joinNl [segGo s] = s
  rw [segGo_whole_high s hne hhead hall, fix_mojibake_segment_fail s henc1 henc2]
  rfl

/-- The left-arrow control-character entry, U+00E2 U+2020 U+0090. -/
theorem pipeline_control_entry (n : Nat) (hn : 1 ≤ n) :
    pipelineFix (repS n [0xE2, 0x2020, 0x0090]) = (List.replicate n 0x2190, 0) := by
  have hmem : ∀ c ∈ repS n [0xE2, 0x2020, 0x0090],
      c = 0xE2 ∨ c = 0x2020 ∨ c = 0x0090 := by
    intro c hc
    have := mem_repS n _ c hc
    simpa using this
  have henc1 : codecFix Codec.cp1252 (repS n [0xE2, 0x2020, 0x0090]) = none := by
    apply codecFix_none
    exact encodeStr_none_of_bad _ _ 0x0090
      (mem_repS_of_mem _ n _ hn (by simp)) (by decide)
  have henc2 : codecFix Codec.latin1 (repS n [0xE2, 0x2020, 0x0090]) = none := by
    apply codecFix_none
    exact encodeStr_none_of_bad _ _ 0x2020
      (mem_repS_of_mem _ n _ hn (by simp)) (by decide)
  have hne : repS n [0xE2, 0x2020, 0x0090] ≠ [] := by
    intro h
    have := congrArg List.length h
    rw [repS_length] at this
    simp at this
    omega
  have hhead : 0xC0 ≤ (repS n [0xE2, 0x2020, 0x0090]).headD 0 := by
    cases n with
    | zero => omega
    | succ m => norm_num [repS]
  have hfe : fix_encoding (repS n [0xE2, 0x2020, 0x0090])
      = repS n [0xE2, 0x2020, 0x0090] := by
    apply fix_encoding_seg_fail _ henc1 henc2
    · intro c hc; rcases hmem c hc with rfl | rfl | rfl <;> decide
    · exact hne
    · exact hhead
    · intro c hc; rcases hmem c hc with rfl | rfl | rfl <;> norm_num
  have hcp : controlPass (repS n [0xE2, 0x2020, 0x0090])
      = List.replicate n 0x2190 := by
    unfold controlPass control_char_fixes
    rw [List.foldl_cons,
        if_pos (occursIn_of_leadsWith _ _ (by simp) (leadsWith_repS _ n hn)),
        replaceAll_repS _ _ (by simp) n, repS_single]
    apply foldl_replace_id
    intro pr hpr
    fin_cases hpr <;>
      exact not_occursIn_replicate _ n 0x2190 0xE2 (by simp) (by norm_num)
  have hsc : scan_remaining_issues (List.replicate n 0x2190) = [] := by
    apply scan_eq_nil
    intro p hp
    fin_cases hp
    · exact not_occursIn_replicate _ n 0x2190 0xE2 (by simp) (by norm_num)
    · exact not_occursIn_replicate _ n 0x2190 0xE2 (by simp) (by norm_num)
    · exact not_occursIn_replicate _ n 0x2190 0xE2 (by simp) (by norm_num)
    · exact not_occursIn_replicate _ n 0x2190 0xE2 (by simp) (by norm_num)
    · exact not_occursIn_replicate _ n 0x2190 0xC2 (by simp) (by norm_num)
    · exact not_occursIn_replicate _ n 0x2190 0xC3 (by simp) (by norm_num)
    · exact not_occursIn_replicate _ n 0x2190 0xC3 (by simp) (by norm_num)
    · exact not_occursIn_replicate _ n 0x2190 0xC3 (by simp) (by norm_num)
    · exact not_occursIn_replicate _ n 0x2190 0xC3 (by simp) (by norm_num)
    · exact not_occursIn_replicate _ n 0x2190 0xC3 (by simp) (by norm_num)
  unfold pipelineFix
  dsimp only
  rw [hfe, hcp, hsc]
  simp

theorem known_fold_id (l : List (Str × Str × String)) (s : Str) (k : Nat)
    (h : ∀ r ∈ l, occursIn r.1 s = false) :
    l.foldl (fun acc r =>
        if occursIn r.1 acc.1 then
          (replaceAll r.1 r.2.1 acc.1, acc.2 + countOcc r.1 acc.1)
        else acc) (s, k) = (s, k) := by
  induction l with
  | nil => rfl
  | cons r rs ih =>
    simp only [List.foldl_cons]
    rw [h r (by simp), if_neg (by simp)]
    exact ih (fun x hx => h x (by simp [hx]))

/-- The right-double-quote entry, U+00E2 U+20AC U+009D: the only entry that
reaches the fallback replacement table. -/
theorem pipeline_fallback_entry (n : Nat) (hn : 1 ≤ n) :
    pipelineFix (repS n [0xE2, 0x20AC, 0x009D]) = (List.replicate n 0x201D, n) := by
  have hmem : ∀ c ∈ repS n [0xE2, 0x20AC, 0x009D],
      c = 0xE2 ∨ c = 0x20AC ∨ c = 0x009D := by
    intro c hc
    have := mem_repS n _ c hc
    simpa using this
  have henc1 : codecFix Codec.cp1252 (repS n [0xE2, 0x20AC, 0x009D]) = none := by
    apply codecFix_none
    exact encodeStr_none_of_bad _ _ 0x009D
      (mem_repS_of_mem _ n _ hn (by simp)) (by decide)
  have henc2 : codecFix Codec.latin1 (repS n [0xE2, 0x20AC, 0x009D]) = none := by
    apply codecFix_none
    exact encodeStr_none_of_bad _ _ 0x20AC
      (mem_repS_of_mem _ n _ hn (by simp)) (by decide)
  have hne : repS n [0xE2, 0x20AC, 0x009D] ≠ [] := by
    intro h
    have := congrArg List.length h
    rw [repS_length] at this
    simp at this
    omega
  have hhead : 0xC0 ≤ (repS n [0xE2, 0x20AC, 0x009D]).headD 0 := by
    cases n with
    | zero => omega
    | succ m => norm_num [repS]
  have hfe : fix_encoding (repS n [0xE2, 0x20AC, 0x009D])
      = repS n [0xE2, 0x20AC, 0x009D] := by
    apply fix_encoding_seg_fail _ henc1 henc2
    · intro c hc; rcases hmem c hc with rfl | rfl | rfl <;> decide
    · exact hne
    · exact hhead
    · intro c hc; rcases hmem c hc with rfl | rfl | rfl <;> norm_num
  have hcp : controlPass (repS n [0xE2, 0x20AC, 0x009D])
      = repS n [0xE2, 0x20AC, 0x009D] := by
    unfold controlPass
    apply foldl_replace_id
    intro pr hpr
    simp only [control_char_fixes, List.mem_cons, List.not_mem_nil, or_false] at hpr
    rcases hpr with rfl | rfl | rfl | rfl | rfl | rfl
    · exact not_occursIn_repS _ _ n 0x2020 (by norm_num) (by norm_num)
    · exact not_occursIn_repS _ _ n 0x0153 (by norm_num) (by norm_num)
    · exact not_occursIn_repS _ _ n 0x0153 (by norm_num) (by norm_num)
    · exact not_occursIn_repS _ _ n 0x0161 (by norm_num) (by norm_num)
    · exact not_occursIn_repS _ _ n 0x0161 (by norm_num) (by norm_num)
    · exact not_occursIn_repS _ _ n 0x0178 (by norm_num) (by norm_num)
  have hsc : scan_remaining_issues (repS n [0xE2, 0x20AC, 0x009D]) ≠ [] := by
    unfold scan_remaining_issues
    rw [Ne, List.filterMap_eq_nil_iff]
    intro hall
    have := hall [0xE2, 0x20AC] (by simp [known_garbled])
    rw [if_pos (occursIn_of_leadsWith _ _ (by simp)
      (by cases n with
          | zero => omega
          | succ m => simp [repS, leadsWith]))] at this
    simp at this
  have hpre : ∀ r ∈
      [ (([0xE2, 0x0153, 0x201C] : Str), ([0x2713] : Str), "checkmark"),
        ([0xE2, 0x0153, 0x2022], [0x2715], "X mark"),
        ([0xE2, 0x0153, 0x201D], [0x2713], "checkmark variant"),
        ([0xE2, 0x2013, 0x00B6], [0x25B6], "triangle right"),
        ([0xE2, 0x2020, 0x2019], [0x2192], "right arrow"),
        ([0xE2, 0x2020, 0x0090], [0x2190], "left arrow"),
        ([0xE2, 0x20AC, 0x201C], [0x2013], "en dash"),
        ([0xE2, 0x20AC, 0x201D], [0x2014], "em dash"),
        ([0xE2, 0x20AC, 0x2122], [0x2019], "right single quote"),
        ([0xE2, 0x20AC, 0x02DC], [0x2018], "left single quote"),
        ([0xE2, 0x20AC, 0x0153], [0x201C], "left double quote") ],
      occursIn r.1 (repS n [0xE2, 0x20AC, 0x009D]) = false := by
    intro r hr
    simp only [List.mem_cons, List.not_mem_nil, or_false] at hr
    rcases hr with rfl | rfl | rfl | rfl | rfl | rfl | rfl | rfl | rfl | rfl | rfl
    · exact not_occursIn_repS _ _ n 0x0153 (by norm_num) (by norm_num)
    · exact not_occursIn_repS _ _ n 0x0153 (by norm_num) (by norm_num)
    · exact not_occursIn_repS _ _ n 0x0153 (by norm_num) (by norm_num)
    · exact not_occursIn_repS _ _ n 0x2013 (by norm_num) (by norm_num)
    · exact not_occursIn_repS _ _ n 0x2020 (by norm_num) (by norm_num)
    · exact not_occursIn_repS _ _ n 0x2020 (by norm_num) (by norm_num)
    · exact not_occursIn_repS _ _ n 0x201C (by norm_num) (by norm_num)
    · exact not_occursIn_repS _ _ n 0x201D (by norm_num) (by norm_num)
    · exact not_occursIn_repS _ _ n 0x2122 (by norm_num) (by norm_num)
    · exact not_occursIn_repS _ _ n 0x02DC (by norm_num) (by norm_num)
    · exact not_occursIn_repS _ _ n 0x0153 (by norm_num) (by norm_num)
  have hpost : ∀ r ∈
      [ (([0xE2, 0x20AC, 0x00A2] : Str), ([0x2022] : Str), "bullet"),
        ([0xE2, 0x20AC, 0x00A6], [0x2026], "ellipsis"),
        ([0x00C2, 0x00A3], [0x00A3], "pound sign") ],
      occursIn r.1 (List.replicate n 0x201D) = false := by
    intro r hr
    simp only [List.mem_cons, List.not_mem_nil, or_false] at hr
    rcases hr with rfl | rfl | rfl
    · exact not_occursIn_replicate _ n 0x201D 0xE2 (by norm_num) (by norm_num)
    · exact not_occursIn_replicate _ n 0x201D 0xE2 (by norm_num) (by norm_num)
    · exact not_occursIn_replicate _ n 0x201D 0xC2 (by norm_num) (by norm_num)
  have happ : apply_known_replacements (repS n [0xE2, 0x20AC, 0x009D])
      = (List.replicate n 0x201D, n) := by
    unfold apply_known_replacements
    rw [show replacements =
        [ (([0xE2, 0x0153, 0x201C] : Str), ([0x2713] : Str), "checkmark"),
          ([0xE2, 0x0153, 0x2022], [0x2715], "X mark"),
          ([0xE2, 0x0153, 0x201D], [0x2713], "checkmark variant"),
          ([0xE2, 0x2013, 0x00B6], [0x25B6], "triangle right"),
          ([0xE2, 0x2020, 0x2019], [0x2192], "right arrow"),
          ([0xE2, 0x2020, 0x0090], [0x2190], "left arrow"),
          ([0xE2, 0x20AC, 0x201C], [0x2013], "en dash"),
          ([0xE2, 0x20AC, 0x201D], [0x2014], "em dash"),
          ([0xE2, 0x20AC, 0x2122], [0x2019], "right single quote"),
          ([0xE2, 0x20AC, 0x02DC], [0x2018], "left single quote"),
          ([0xE2, 0x20AC, 0x0153], [0x201C], "left double quote") ]
        ++ (([0xE2, 0x20AC, 0x009D], [0x201D], "right double quote")
            :: [ ([0xE2, 0x20AC, 0x00A2], [0x2022], "bullet"),
                 ([0xE2, 0x20AC, 0x00A6], [0x2026], "ellipsis"),
                 ([0x00C2, 0x00A3], [0x00A3], "pound sign") ]) from rfl,
        List.foldl_append,
        known_fold_id _ (repS n [0xE2, 0x20AC, 0x009D]) 0 hpre,
        List.foldl_cons,
        if_pos (occursIn_of_leadsWith _ _ (by simp) (leadsWith_repS _ n hn)),
        replaceAll_repS _ _ (by simp) n, repS_single,
        countOcc_repS _ (by simp) n,
        known_fold_id _ (List.replicate n 0x201D) (0 + n) hpost]
    simp
  unfold pipelineFix
  dsimp only
  rw [hfe, hcp]
  rw [if_neg hsc, happ]


 

/-- C5 amended: for every entry of the known-replacement table except the
checkmark-variant entry (garbled U+00E2 U+0153 U+201D), the full pipeline
maps content consisting of n ≥ 1 literal occurrences of the garbled
sequence to exactly n occurrences of the corresponding correct character;
the checkmark-variant input yields n occurrences of U+2714 (its true codec
reversal) instead of the table's U+2713; and the fallback table's reported
occurrence count is n for the right-double-quote entry (the only entry
that reaches the fallback pass) and 0 for every other entry, which is
resolved earlier by Strategy 1 or the control-character pass. -/
theorem known_table_roundtrip (n : Nat) (hn : 1 ≤ n) :
    ∀ e ∈ replacements,
      (pipelineFix (repS n e.1)).1
          = (if e.1 = [0xE2, 0x0153, 0x201D] then List.replicate n 0x2714
             else repS n e.2.1)
        ∧ (pipelineFix (repS n e.1)).2
          = (if e.1 = [0xE2, 0x20AC, 0x009D] then n else 0) := by
  intro e he
  simp only [replacements, List.mem_cons, List.not_mem_nil, or_false] at he
  rcases he with rfl | rfl | rfl | rfl | rfl | rfl | rfl | rfl | rfl | rfl | rfl | rfl | rfl | rfl | rfl
  · have h := pipeline_strat1_entry [0xE2, 0x0153, 0x201C] [0xE2, 0x9C, 0x93] 0x2713
      [0xE2, 0x9C, 0x93] n hn (by decide)
      (fun rest => by
        rw [show ([0xE2, 0x9C, 0x93] : Bytes) ++ rest = 0xE2 :: 0x9C :: 0x93 :: rest from rfl,
            utf8Decode_cons3 0xE2 0x9C 0x93 rest (by norm_num) (by norm_num) (by decide) (by decide)]
        norm_num [cpOf3])
      (by decide) (by norm_num) (by decide) (by decide)
    simp [h, repS_single]
  · have h := pipeline_strat1_entry [0xE2, 0x0153, 0x2022] [0xE2, 0x9C, 0x95] 0x2715
      [0xE2, 0x9C, 0x95] n hn (by decide)
      (fun rest => by
        rw [show ([0xE2, 0x9C, 0x95] : Bytes) ++ rest = 0xE2 :: 0x9C :: 0x95 :: rest from rfl,
            utf8Decode_cons3 0xE2 0x9C 0x95 rest (by norm_num) (by norm_num) (by decide) (by decide)]
        norm_num [cpOf3])
      (by decide) (by norm_num) (by decide) (by decide)
    simp [h, repS_single]
  · have h := pipeline_strat1_entry [0xE2, 0x0153, 0x201D] [0xE2, 0x9C, 0x94] 0x2714
      [0xE2, 0x9C, 0x94] n hn (by decide)
      (fun rest => by
        rw [show ([0xE2, 0x9C, 0x94] : Bytes) ++ rest = 0xE2 :: 0x9C :: 0x94 :: rest from rfl,
            utf8Decode_cons3 0xE2 0x9C 0x94 rest (by norm_num) (by norm_num) (by decide) (by decide)]
        norm_num [cpOf3])
      (by decide) (by norm_num) (by decide) (by decide)
    simp [h, repS_single]
  · have h := pipeline_strat1_entry [0xE2, 0x2013, 0x00B6] [0xE2, 0x96, 0xB6] 0x25B6
      [0xE2, 0x96, 0xB6] n hn (by decide)
      (fun rest => by
        rw [show ([0xE2, 0x96, 0xB6] : Bytes) ++ rest = 0xE2 :: 0x96 :: 0xB6 :: rest from rfl,
            utf8Decode_cons3 0xE2 0x96 0xB6 rest (by norm_num) (by norm_num) (by decide) (by decide)]
        norm_num [cpOf3])
      (by decide) (by norm_num) (by decide) (by decide)
    simp [h, repS_single]
  · have h := pipeline_strat1_entry [0xE2, 0x2020, 0x2019] [0xE2, 0x86, 0x92] 0x2192
      [0xE2, 0x86, 0x92] n hn (by decide)
      (fun rest => by
        rw [show ([0xE2, 0x86, 0x92] : Bytes) ++ rest = 0xE2 :: 0x86 :: 0x92 :: rest from rfl,
            utf8Decode_cons3 0xE2 0x86 0x92 rest (by norm_num) (by norm_num) (by decide) (by decide)]
        norm_num [cpOf3])
      (by decide) (by norm_num) (by decide) (by decide)
    simp [h, repS_single]
  · have h := pipeline_control_entry n hn
    simp [h, repS_single]
  · have h := pipeline_strat1_entry [0xE2, 0x20AC, 0x201C] [0xE2, 0x80, 0x93] 0x2013
      [0xE2, 0x80, 0x93] n hn (by decide)
      (fun rest => by
        rw [show ([0xE2, 0x80, 0x93] : Bytes) ++ rest = 0xE2 :: 0x80 :: 0x93 :: rest from rfl,
            utf8Decode_cons3 0xE2 0x80 0x93 rest (by norm_num) (by norm_num) (by decide) (by decide)]
        norm_num [cpOf3])
      (by decide) (by norm_num) (by decide) (by decide)
    simp [h, repS_single]
  · have h := pipeline_strat1_entry [0xE2, 0x20AC, 0x201D] [0xE2, 0x80, 0x94] 0x2014
      [0xE2, 0x80, 0x94] n hn (by decide)
      (fun rest => by
        rw [show ([0xE2, 0x80, 0x94] : Bytes) ++ rest = 0xE2 :: 0x80 :: 0x94 :: rest from rfl,
            utf8Decode_cons3 0xE2 0x80 0x94 rest (by norm_num) (by norm_num) (by decide) (by decide)]
        norm_num [cpOf3])
      (by decide) (by norm_num) (by decide) (by decide)
    simp [h, repS_single]
  · have h := pipeline_strat1_entry [0xE2, 0x20AC, 0x2122] [0xE2, 0x80, 0x99] 0x2019
      [0xE2, 0x80, 0x99] n hn (by decide)
      (fun rest => by
        rw [show ([0xE2, 0x80, 0x99] : Bytes) ++ rest = 0xE2 :: 0x80 :: 0x99 :: rest from rfl,
            utf8Decode_cons3 0xE2 0x80 0x99 rest (by norm_num) (by norm_num) (by decide) (by decide)]
        norm_num [cpOf3])
      (by decide) (by norm_num) (by decide) (by decide)
    simp [h, repS_single]
  · have h := pipeline_strat1_entry [0xE2, 0x20AC, 0x02DC] [0xE2, 0x80, 0x98] 0x2018
      [0xE2, 0x80, 0x98] n hn (by decide)
      (fun rest => by
        rw [show ([0xE2, 0x80, 0x98] : Bytes) ++ rest = 0xE2 :: 0x80 :: 0x98 :: rest from rfl,
            utf8Decode_cons3 0xE2 0x80 0x98 rest (by norm_num) (by norm_num) (by decide) (by decide)]
        norm_num [cpOf3])
      (by decide) (by norm_num) (by decide) (by decide)
    simp [h, repS_single]
  · have h := pipeline_strat1_entry [0xE2, 0x20AC, 0x0153] [0xE2, 0x80, 0x9C] 0x201C
      [0xE2, 0x80, 0x9C] n hn (by decide)
      (fun rest => by
        rw [show ([0xE2, 0x80, 0x9C] : Bytes) ++ rest = 0xE2 :: 0x80 :: 0x9C :: rest from rfl,
            utf8Decode_cons3 0xE2 0x80 0x9C rest (by norm_num) (by norm_num) (by decide) (by decide)]
        norm_num [cpOf3])
      (by decide) (by norm_num) (by decide) (by decide)
    simp [h, repS_single]
  · have h := pipeline_fallback_entry n hn
    simp [h, repS_single]
  · have h := pipeline_strat1_entry [0xE2, 0x20AC, 0x00A2] [0xE2, 0x80, 0xA2] 0x2022
      [0xE2, 0x80, 0xA2] n hn (by decide)
      (fun rest => by
        rw [show ([0xE2, 0x80, 0xA2] : Bytes) ++ rest = 0xE2 :: 0x80 :: 0xA2 :: rest from rfl,
            utf8Decode_cons3 0xE2 0x80 0xA2 rest (by norm_num) (by norm_num) (by decide) (by decide)]
        norm_num [cpOf3])
      (by decide) (by norm_num) (by decide) (by decide)
    simp [h, repS_single]
  · have h := pipeline_strat1_entry [0xE2, 0x20AC, 0x00A6] [0xE2, 0x80, 0xA6] 0x2026
      [0xE2, 0x80, 0xA6] n hn (by decide)
      (fun rest => by
        rw [show ([0xE2, 0x80, 0xA6] : Bytes) ++ rest = 0xE2 :: 0x80 :: 0xA6 :: rest from rfl,
            utf8Decode_cons3 0xE2 0x80 0xA6 rest (by norm_num) (by norm_num) (by decide) (by decide)]
        norm_num [cpOf3])
      (by decide) (by norm_num) (by decide) (by decide)
    simp [h, repS_single]
  · have h := pipeline_strat1_entry [0x00C2, 0x00A3] [0xC2, 0xA3] 0xA3
      [0xC2, 0xA3] n hn (by decide)
      (fun rest => by
        rw [show ([0xC2, 0xA3] : Bytes) ++ rest = 0xC2 :: 0xA3 :: rest from rfl,
            utf8Decode_cons2 0xC2 0xA3 rest (by norm_num) (by norm_num) (by decide)]
        norm_num [cpOf2])
      (by decide) (by norm_num) (by decide) (by decide)
    simp [h, repS_single]

/-- C5 counterexample: the checkmark-variant entry maps the garbled
sequence U+00E2 U+0153 U+201D to U+2713 in the table, but on a file
holding exactly that sequence Strategy 1's codec reversal runs first and
produces U+2714 (the character those bytes really encode), so the
pipeline's output is not the table's correct character. -/
theorem known_table_cex :
    ([0xE2, 0x0153, 0x201D], [0x2713], "checkmark variant") ∈ replacements
      ∧ (pipelineFix (repS 1 [0xE2, 0x0153, 0x201D])).1 ≠ [0x2713] := by
  constructor
  · simp [replacements]
  · decide

/-- Witness for C5 amended, at the checkmark entry with n = 1. -/
theorem known_table_roundtrip_witness :
    (pipelineFix (repS 1 [0xE2, 0x0153, 0x201C])).1
        = (if ([0xE2, 0x0153, 0x201C] : Str) = [0xE2, 0x0153, 0x201D]
           then List.replicate 1 0x2714 else repS 1 [0x2713])
      ∧ (pipelineFix (repS 1 [0xE2, 0x0153, 0x201C])).2
        = (if ([0xE2, 0x0153, 0x201C] : Str) = [0xE2, 0x20AC, 0x009D] then 1 else 0) :=
  known_table_roundtrip 1 (by decide)
    ([0xE2, 0x0153, 0x201C], [0x2713], "checkmark") (by simp [replacements])

end FixEnc
